import Mathlib

/-!
Verification of the question-normalization and answer-validation core of a
small quiz web application (`website/views.py`).

The Python functions `slugify`, `normalize_questions`, `load_questions`,
`save_answers` and the POST branch of the `questionnaire` view are embedded
as executable Lean definitions over a `Val` type modelling the JSON-like
Python values they manipulate.  Strings are Lean `String`s; all character
level operations (`str.strip`, `str.lower`, `str.split`, `re.sub`, …) are
implemented by structural recursion on `List Char` so that concrete runs
reduce inside the kernel.

Modelling notes (divergences from CPython that none of the proved
statements depend on):
* `str.lower` / `str.strip` are modelled on the ASCII range
  (`Char.toLower`, `Char.isWhitespace`); Unicode case mapping and the
  extra Unicode whitespace code points are not modelled.
* JSON numbers are modelled as integers (`Int`); `repr` of strings does
  not model escaping of quotes inside the string.
* `float(...)` acceptance is modelled for ASCII digit strings
  (sign, decimal part, exponent, underscores between digits, inf/nan);
  non-ASCII digits are not modelled.
-/

namespace Quiz

/-- The character class `[a-z0-9_]` used by `slugify`'s regexes. -/
def isSlugChar (c : Char) : Bool :=
  (97 ≤ c.toNat && c.toNat ≤ 122) || (48 ≤ c.toNat && c.toNat ≤ 57) || c.toNat == 95

/-- Python `str.strip()` on a character list: drop whitespace from both ends. -/
def pyStrip (cs : List Char) : List Char :=
  ((cs.dropWhile Char.isWhitespace).reverse.dropWhile Char.isWhitespace).reverse

/-- Python `str.strip()` on strings. -/
def pyStripS (s : String) : String := String.mk (pyStrip s.data)

/-- One step of `re.sub(r"[^a-z0-9_]+", "_", ·)`: a maximal run of characters
outside `[a-z0-9_]` becomes a single underscore.  The boolean argument
records whether the previous character was part of such a run (so the
underscore for the run has already been emitted). -/
def subBadAux : Bool → List Char → List Char
  | _, [] => []
  | prevBad, c :: cs =>
    if isSlugChar c then c :: subBadAux false cs
    else if prevBad then subBadAux true cs
    else '_' :: subBadAux true cs

/-- `re.sub(r"[^a-z0-9_]+", "_", ·)`. -/
def subBad (cs : List Char) : List Char := subBadAux false cs

/-- One step of `re.sub(r"_+", "_", ·)`: collapse runs of underscores.  The
boolean records whether the previous kept character was an underscore. -/
def collapseUndAux : Bool → List Char → List Char
  | _, [] => []
  | prevU, c :: cs =>
    if c == '_' then
      if prevU then collapseUndAux true cs else '_' :: collapseUndAux true cs
    else c :: collapseUndAux false cs

/-- `re.sub(r"_+", "_", ·)`. -/
def collapseUnd (cs : List Char) : List Char := collapseUndAux false cs

/-- Python `str.strip("_")`: drop underscores from both ends. -/
def stripUnd (cs : List Char) : List Char :=
  ((cs.dropWhile (fun c => c == '_')).reverse.dropWhile (fun c => c == '_')).reverse

/-- The character pipeline of `slugify`:
`strip` then `lower` then the two regex substitutions then `strip("_")`. -/
def slugifyL (cs : List Char) : List Char :=
  stripUnd (collapseUnd (subBad ((pyStrip cs).map Char.toLower)))

/-- `slugify` from `views.py`:
```
text = (text or "").strip().lower()
text = re.sub(r"[^a-z0-9_]+", "_", text)
text = re.sub(r"_+", "_", text).strip("_")
return text or "question"
``` -/
def slugify (text : String) : String :=
  let l := slugifyL text.data
  if l.isEmpty then "question" else String.mk l

/-- Decimal digits of a natural number, least significant first, with an
explicit fuel argument so that the definition is structural and reduces in
the kernel.  `natRepr` below always supplies sufficient fuel. -/
def natDigitsRevFuel : Nat → Nat → List Char
  | 0, _ => []
  | fuel+1, n =>
    if n < 10 then [Nat.digitChar n]
    else Nat.digitChar (n % 10) :: natDigitsRevFuel fuel (n / 10)

/-- Python `str(n)` for a non-negative integer: its decimal representation.
Used to model the f-strings `f"q{i}"` and `f"{base_key}_{n}"`. -/
def natRepr (n : Nat) : String := String.mk (natDigitsRevFuel (n + 1) n).reverse

/-- The ASCII apostrophe, as a string.  The French error messages of the
validator quote the question label with it. -/
def apos : String := String.mk [Char.ofNat 39]

/-- Python values as produced by `json.load` (plus `None` for absent
values): the dynamic values `normalize_questions` traverses.  JSON numbers
are modelled as integers; objects as ordered association lists with
distinct keys. -/
inductive Val where
  | vnull
  | vbool (b : Bool)
  | vnum (n : Int)
  | vstr (s : String)
  | vlist (l : List Val)
  | vdict (d : List (String × Val))
deriving Repr

/-- Python `str(n)` for an integer. -/
def intRepr (n : Int) : String :=
  if n < 0 then "-" ++ natRepr n.natAbs else natRepr n.toNat

mutual

/-- Python `repr` of a value (escaping inside strings is not modelled; no
claim evaluates `repr` of a string containing a quote). -/
def pyRepr : Val → String
  | .vnull => "None"
  | .vbool true => "True"
  | .vbool false => "False"
  | .vnum n => intRepr n
  | .vstr s => apos ++ s ++ apos
  | .vlist l => "[" ++ pyReprList l ++ "]"
  | .vdict d => "\x7b" ++ pyReprDict d ++ "\x7d"

/-- Comma-separated `repr`s of the elements of a list. -/
def pyReprList : List Val → String
  | [] => ""
  | [v] => pyRepr v
  | v :: rest => pyRepr v ++ ", " ++ pyReprList rest

/-- Comma-separated `repr`s of the entries of a dict. -/
def pyReprDict : List (String × Val) → String
  | [] => ""
  | [(k, v)] => apos ++ k ++ apos ++ ": " ++ pyRepr v
  | (k, v) :: rest => apos ++ k ++ apos ++ ": " ++ pyRepr v ++ ", " ++ pyReprDict rest

end

/-- Python `str(v)`: the value itself for strings, `repr`-like text
otherwise (`str` and `repr` agree on `None`, booleans, numbers, lists and
dicts). -/
def pyStr (v : Val) : String :=
  match v with
  | .vstr s => s
  | _ => pyRepr v

/-- Python truthiness: `bool(v)`. -/
def truthy : Val → Bool
  | .vnull => false
  | .vbool b => b
  | .vnum n => n != 0
  | .vstr s => s ≠ ""
  | .vlist l => !l.isEmpty
  | .vdict d => !d.isEmpty

/-- `d[k]` lookup in a dict, `none` when absent. -/
def dget (d : List (String × Val)) (k : String) : Option Val :=
  match d with
  | [] => none
  | (k', v) :: rest => if k' = k then some v else dget rest k

/-- Python `k in d`. -/
def hasKey (d : List (String × Val)) (k : String) : Bool := (dget d k).isSome

/-- Python `d.get(k)` (default `None`). -/
def dgetD (d : List (String × Val)) (k : String) : Val := (dget d k).getD .vnull

/-- Python `a or b` on values. -/
def pyOr (a b : Val) : Val := if truthy a then a else b

/-- Python `a or b` on strings (a string is truthy iff non-empty). -/
def pyOrS (a b : String) : String := if a == "" then b else a

/-- The canonical question record produced by `normalize_questions`:
`{id, key, label, description, type, required, options?}`.  The Python
dict key `type` is named `qtype` here. -/
structure Question where
  id : Nat
  key : String
  label : String
  description : String
  qtype : String
  required : Bool
  options : Option (List String)
deriving Repr, DecidableEq

/-- A normalized entry before position (`id`) assignment and key
deduplication against earlier keys of the pass. -/
structure PreQ where
  key : String
  label : String
  description : String
  qtype : String
  required : Bool
  options : Option (List String)
deriving Repr, DecidableEq

/-- The candidate key `f"{base}_{n}"` tried by the deduplication loop. -/
def candKey (base : String) (n : Nat) : String := base ++ "_" ++ natRepr n

/-- The `while key in used_keys: key = f"{base_key}_{n}"; n += 1` loop of
`normalize_questions`, with fuel (the loop terminates because the candidate
keys are pairwise distinct and `used_keys` is finite; `dedupKey` supplies
fuel `used.length + 1`, which the lemmas below show is enough). -/
def freshLoop (used : List String) (base : String) : Nat → Nat → String
  | 0, n => candKey base n
  | fuel+1, n =>
    if candKey base n ∈ used then freshLoop used base fuel (n+1) else candKey base n

/-- Key deduplication (`views.py` lines 121–127): keep `key` if unused,
else take the first unused of `key_2`, `key_3`, …. -/
def dedupKey (used : List String) (key : String) : String :=
  if key ∈ used then freshLoop used key (used.length + 1) 2 else key

/-- `isinstance(v, list) and len(v) > 0`. -/
def isNonEmptyList : Val → Bool
  | .vlist l => !l.isEmpty
  | _ => false

/-- `v` as a Python list (non-lists become `[]`), used by the
`if not isinstance(options, list): options = []` branch. -/
def asList : Val → List Val
  | .vlist l => l
  | _ => []

/-- The common tail of the loop body of `normalize_questions` (lines
114–135): drop the entry if its label is empty, apply the `f"q{i}"`
fallback for a still-empty key, slugify the key, and clean the options
(`[str(o).strip() for o in options if str(o).strip()]` for choice/multi,
`None` otherwise).  Deduplication and `id` assignment happen in
`normLoop`. -/
def mkEntry (i : Nat) (key label desc qtype : String) (required : Bool)
    (options : Val) : Option PreQ :=
  if label == "" then none
  else
    let key1 := if key == "" then "q" ++ natRepr i else key
    let key2 := slugify key1
    let opts : Option (List String) :=
      if qtype == "choice" || qtype == "multi" then
        some (((asList options).map (fun o => pyStripS (pyStr o))).filter
          (fun s => s ≠ ""))
      else none
    some ⟨key2, label, desc, qtype, required, opts⟩

/-- One iteration of the `for i, q in enumerate(raw, start=1)` loop of
`normalize_questions` (lines 90–135), for the element at 1-based position
`i`: skip non-dict elements, extract the fields according to the new/legacy
format detection, then `mkEntry`. -/
def normEntry (i : Nat) (v : Val) : Option PreQ :=
  match v with
  | .vdict q =>
    if hasKey q ("key") && (hasKey q ("label") || hasKey q ("question")) then
      -- new format
      let key := pyStripS (pyStr (pyOr (dgetD q ("key")) (.vstr (""))))
      let label := pyStripS (pyStr (pyOr (pyOr (dgetD q ("label")) (dgetD q ("question"))) (.vstr (""))))
      let desc := pyStripS (pyStr (pyOr (pyOr (dgetD q ("description")) (dgetD q ("desc"))) (.vstr (""))))
      let qtype := pyStripS (pyStr (pyOr (dgetD q ("type")) (.vstr ("text"))))
      let required := truthy ((dget q ("required")).getD (.vbool false))
      mkEntry i key label desc qtype required (dgetD q ("options"))
    else
      -- legacy format
      let label := pyStripS (pyStr (pyOr (pyOr (dgetD q ("question")) (dgetD q ("label"))) (.vstr (""))))
      let desc := pyStripS (pyStr (pyOr (dgetD q ("description")) (.vstr (""))))
      let options := dgetD q ("options")
      let qtype := if isNonEmptyList options then ("choice") else ("text")
      let required := truthy ((dget q ("required")).getD (.vbool true))
      let key0 := pyStripS (pyStr (pyOr (dgetD q ("key")) (.vstr (""))))
      let key := if key0 == "" then pyOrS (slugify label) ("q" ++ natRepr i) else key0
      mkEntry i key label desc qtype required options
  | _ => none

/-- The whole loop of `normalize_questions`: position counter `i`, the set
`used_keys` of already-emitted keys (as a list), remaining raw elements. -/
def normLoop (i : Nat) (used : List String) : List Val → List Question
  | [] => []
  | v :: rest =>
    match normEntry i v with
    | none => normLoop (i+1) used rest
    | some p =>
      let k := dedupKey used p.key
      ⟨i, k, p.label, p.description, p.qtype, p.required, p.options⟩ ::
        normLoop (i+1) (k :: used) rest

/-- `if isinstance(raw, dict) and "questions" in raw: raw = raw["questions"]`. -/
def unwrapQuestions (raw : Val) : Val :=
  match raw with
  | .vdict d => if hasKey d ("questions") then dgetD d ("questions") else raw
  | _ => raw

/-- `normalize_questions` from `views.py` (lines 68–150). -/
def normalize_questions (raw : Val) : List Question :=
  match raw with
  | .vnull => []
  | _ =>
    match unwrapQuestions raw with
    | .vlist l => normLoop 1 [] l
    | _ => []

/-- The 1-based original positions (skipped elements counted) of the raw
elements that `normalize_questions` keeps. -/
def keptIds (i : Nat) : List Val → List Nat
  | [] => []
  | v :: rest =>
    if (normEntry i v).isSome then i :: keptIds (i+1) rest else keptIds (i+1) rest

/-! ### Loading a questionnaire (`load_questions`, lines 153–162) -/

/-- Outcome of reading and JSON-parsing the definition file: the file does
not exist (`FileNotFoundError`), exists but is not parseable JSON
(`json.JSONDecodeError`), or parses to a value. -/
inductive FileResult where
  | absent
  | unparseable
  | parsed (v : Val)
deriving Repr

/-- `load_questions` from `views.py`, over the abstracted file read:
`None` on `FileNotFoundError`, `[]` on `JSONDecodeError`, otherwise the
normalized questions. -/
def load_questions : FileResult → Option (List Question)
  | .absent => none
  | .unparseable => some []
  | .parsed v => some (normalize_questions v)

/-- How the `questionnaire` view (lines 224–232) dispatches on the result
of `load_questions`. -/
inductive LoadOutcome where
  | notFound
  | emptyOrUnreadable
  | ok (qs : List Question)
deriving Repr, DecidableEq

/-- The dispatch at the top of the `questionnaire` view:
`questions is None` → "introuvable"; `not questions` → "vide ou pas un
format lisible"; otherwise proceed with the questions. -/
def questionnaire_dispatch (r : FileResult) : LoadOutcome :=
  match load_questions r with
  | none => .notFound
  | some qs => if qs.isEmpty then .emptyOrUnreadable else .ok qs

/-! ### The answer validator (POST branch of `questionnaire`, lines 234–305) -/

/-- Python `s.split(sep)` for a single-character separator: split at every
occurrence, keeping empty pieces (`"".split("|") == [""]`). -/
def pySplit (sep : Char) : List Char → List (List Char)
  | [] => [[]]
  | c :: cs =>
    if c = sep then [] :: pySplit sep cs
    else
      match pySplit sep cs with
      | [] => [[c]]
      | p :: ps => (c :: p) :: ps

/-- Python `value.replace(",", ".")`. -/
def commaToDot (s : String) : String :=
  String.mk (s.data.map (fun c => if c = ',' then '.' else c))

/-- Python `" | ".join(xs)`. -/
def joinPipe (xs : List String) : String :=
  String.mk (List.intercalate ([' ', '|', ' ']) (xs.map String.data))

/-- Validity of underscores in a CPython numeric string: every underscore
must be directly between two digits. -/
def underscoresOK : List Char → Bool
  | [] => true
  | ['_'] => false
  | '_' :: _ => false
  | [_] => true
  | a :: '_' :: c :: rest =>
    (a.isDigit && c.isDigit) && underscoresOK (c :: rest)
  | _ :: b :: rest => underscoresOK (b :: rest)

/-- Exponent part after `e`/`E`: optional sign then at least one digit. -/
def floatExpPart (cs : List Char) : Bool :=
  let cs := match cs with
    | '+' :: r => r
    | '-' :: r => r
    | r => r
  !cs.isEmpty && cs.all Char.isDigit

/-- Decimal mantissa with optional fraction and exponent: `digits`,
`digits.digits`, `digits.`, `.digits`, each optionally followed by an
exponent; at least one mantissa digit required. -/
def floatDecimal (cs : List Char) : Bool :=
  let ip := cs.takeWhile Char.isDigit
  let r1 := cs.dropWhile Char.isDigit
  let fp := match r1 with
    | '.' :: r => r.takeWhile Char.isDigit
    | _ => []
  let r2 := match r1 with
    | '.' :: r => r.dropWhile Char.isDigit
    | _ => r1
  if ip.isEmpty && fp.isEmpty then false
  else
    match r2 with
    | [] => true
    | e :: r3 => (e == 'e' || e == 'E') && floatExpPart r3

/-- Acceptance of `float(s)` in CPython: surrounding whitespace stripped,
optional sign, then `inf`/`infinity`/`nan` (case-insensitive) or a decimal
mantissa with optional exponent; underscores allowed between digits. -/
def pyFloatParses (s : String) : Bool :=
  let cs := pyStrip s.data
  let cs1 := match cs with
    | '+' :: r => r
    | '-' :: r => r
    | r => r
  let low := cs1.map Char.toLower
  (low == [ 'i', 'n', 'f'] || low == [ 'i', 'n', 'f', 'i', 'n', 'i', 't', 'y'] ||
    low == [ 'n', 'a', 'n']) ||
  (underscoresOK cs1 && floatDecimal (cs1.filter (fun c => c ≠ '_')))

/-- Leap years of the proleptic Gregorian calendar (`datetime`). -/
def isLeap (y : Nat) : Bool := (y % 4 == 0 && y % 100 != 0) || y % 400 == 0

/-- Number of days of month `m` of year `y`. -/
def daysInMonth (y m : Nat) : Nat :=
  if m == 2 then (if isLeap y then 29 else 28)
  else if m == 4 || m == 6 || m == 9 || m == 11 then 30
  else 31

/-- Decimal digit string to number. -/
def digitsToNat (cs : List Char) : Nat :=
  cs.foldl (fun a c => a * 10 + (c.toNat - 48)) 0

/-- Acceptance of `datetime.strptime(s, "%Y-%m-%d")`: a 4-digit year
(at least 0001), a 1–2 digit month 1–12 and a 1–2 digit day valid for
that month, separated by literal dashes, consuming the whole string. -/
def parseYMD (s : String) : Bool :=
  match pySplit '-' s.data with
  | [y, m, d] =>
    (y.length == 4 && y.all Char.isDigit) &&
    (1 ≤ m.length && m.length ≤ 2 && m.all Char.isDigit) &&
    (1 ≤ d.length && d.length ≤ 2 && d.all Char.isDigit) &&
    (1 ≤ digitsToNat y) &&
    (1 ≤ digitsToNat m && digitsToNat m ≤ 12) &&
    (1 ≤ digitsToNat d && digitsToNat d ≤ daysInMonth (digitsToNat y) (digitsToNat m))
  | _ => false

/-- Submitted form data: an ordered multi-dict of field name / value
pairs, as Flask's `request.form`. -/
def Form : Type := List (String × String)

/-- `request.form.get(k, "")`: first value bound to `k`, default `""`. -/
def formGet (form : Form) (k : String) : String :=
  match form with
  | [] => ""
  | (k', v) :: rest => if k' = k then v else formGet rest k

/-- `request.form.getlist(k)`: all values bound to `k`, in order. -/
def formGetlist (form : Form) (k : String) : List String :=
  match form with
  | [] => []
  | (k', v) :: rest =>
    if k' = k then v :: formGetlist rest k else formGetlist rest k

/-- The multi re-validation check (lines 282–289): split the stored value
on `|`, trim each piece, drop empties; every piece must be among the
options. -/
def multiChosen (value : String) : List String :=
  ((pySplit '|' value.data).map (fun p => String.mk (pyStrip p))).filter
    (fun v => v ≠ "")

/-- `invalid = [v for v in chosen if v not in opts]` is empty. -/
def multiOk (opts : List String) (value : String) : Bool :=
  (multiChosen value).filter (fun v => !opts.contains v) |>.isEmpty

/-- Reading the submitted value of one question (lines 244–249): for
`multi`, join the trimmed non-empty selections of `key[]` with `" | "` and
trim; otherwise take `form.get(key, "")` trimmed. -/
def readValue (form : Form) (q : Question) : String :=
  if q.qtype == "multi" then
    pyStripS (joinPipe (((formGetlist form (q.key ++ "[]")).map pyStripS).filter
      (fun v => v ≠ "")))
  else pyStripS (formGet form q.key)

/-- One iteration of the validation loop (lines 238–291): either the error
message appended to `errors`, or the `(key, value)` pair assigned into
`answers`. -/
def checkQuestion (form : Form) (q : Question) : Except String (String × String) :=
  let value := readValue form q
  if q.required && value == "" then
    .error (apos ++ q.label ++ apos ++ " est obligatoire.")
  else if value == "" then .ok (q.key, "")
  else if q.qtype == "number" then
    if pyFloatParses (commaToDot value) then .ok (q.key, value)
    else .error (apos ++ q.label ++ apos ++ " doit être un nombre valide.")
  else if q.qtype == "date" then
    if parseYMD value then .ok (q.key, value)
    else .error (apos ++ q.label ++ apos ++ " doit être une date valide (YYYY-MM-DD).")
  else if q.qtype == "choice" then
    let opts := q.options.getD []
    if !opts.isEmpty && !opts.contains value then
      .error ("Réponse invalide pour " ++ apos ++ q.label ++ apos ++ ".")
    else .ok (q.key, value)
  else if q.qtype == "multi" then
    let opts := q.options.getD []
    if !opts.isEmpty && !(multiOk opts value) then
      .error ("Réponses invalides pour " ++ apos ++ q.label ++ apos ++ ".")
    else .ok (q.key, value)
  else .ok (q.key, value)

/-- Python dict assignment `d[k] = v`: overwrite in place, else append. -/
def dset (d : List (String × String)) (k v : String) : List (String × String) :=
  match d with
  | [] => [(k, v)]
  | (k', v') :: rest => if k' = k then (k, v) :: rest else (k', v') :: dset rest k v

/-- Python `d.get(k, "")` on the answers dict. -/
def dgetS (d : List (String × String)) (k : String) : String :=
  match d with
  | [] => ""
  | (k', v) :: rest => if k' = k then v else dgetS rest k

/-- The validation loop over the questions, accumulating the `answers`
dict and the `errors` list. -/
def validateAux (form : Form) (ans : List (String × String)) (errs : List String) :
    List Question → List (String × String) × List String
  | [] => (ans, errs)
  | q :: qs =>
    match checkQuestion form q with
    | .error e => validateAux form ans (errs ++ [e]) qs
    | .ok (k, v) => validateAux form (dset ans k v) errs qs

/-- The whole validation pass of the POST branch: accepted answers and
collected errors. -/
def validate (questions : List Question) (form : Form) :
    List (String × String) × List String :=
  validateAux form [] [] questions

/-- The row written by `save_answers` (lines 165–194): the submitter
metadata columns followed by one column per question key, taking
`answers.get(key, "")`. -/
def mkRow (meta : List (String × String)) (questions : List Question)
    (answers : List (String × String)) : List (String × String) :=
  meta ++ questions.map (fun q => (q.key, dgetS answers q.key))

/-- `save_answers`: append one row to the result log. -/
def save_answers (qid_meta : List (String × String)) (questions : List Question)
    (answers : List (String × String)) (log : List (List (String × String))) :
    List (List (String × String)) :=
  log ++ [mkRow qid_meta questions answers]

/-- The tail of the POST branch (lines 293–305): on any error, flash the
errors and re-render (the log is untouched and `save_answers` is not
called); otherwise append the accepted answers as one result row.  Returns
the new log and the errors surfaced for display. -/
def handlePost (questions : List Question) (form : Form)
    (meta : List (String × String)) (log : List (List (String × String))) :
    List (List (String × String)) × List String :=
  let r := validate questions form
  if r.2.isEmpty then (save_answers meta questions r.1 log, [])
  else (log, r.2)

/-! ### Specification-side definitions used only to state properties -/

/-- The answers dict produced when every check passes: fold of the `ok`
results of `checkQuestion` (specification-side restatement of the
accumulator of `validateAux`). -/
def ansFold (form : Form) (ans : List (String × String)) :
    List Question → List (String × String)
  | [] => ans
  | q :: qs =>
    match checkQuestion form q with
    | .error _ => ansFold form ans qs
    | .ok (k, v) => ansFold form (dset ans k v) qs

/-- The error messages collected over a question list, in order. -/
def errList (form : Form) (qs : List Question) : List String :=
  qs.filterMap (fun q =>
    match checkQuestion form q with
    | .error e => some e
    | .ok _ => none)

/-- No two adjacent underscores (the post-condition of
`re.sub(r"_+", "_", ·)`). -/
def RNU (a b : Char) : Prop := a ≠ '_' ∨ b ≠ '_'

/-- Python `str.isalnum` on the ASCII range: `A–Z`, `a–z` or `0–9`. -/
def pyIsAlnumChar (c : Char) : Bool :=
  (65 ≤ c.toNat && c.toNat ≤ 90) || (97 ≤ c.toNat && c.toNat ≤ 122) ||
    (48 ≤ c.toNat && c.toNat ≤ 57)

end Quiz

namespace Quiz

example : pyFloatParses ("12.5") = true := by decide
example : pyFloatParses (commaToDot ("12,5")) = true := by decide
example : pyFloatParses ("1_000.5e-3") = true := by decide
example : pyFloatParses ("-.5E+7") = true := by decide
example : pyFloatParses ("abc") = false := by decide
example : pyFloatParses ("1_.5") = false := by decide
example : pyFloatParses ("") = false := by decide
example : pyFloatParses (" inf ") = true := by decide
example : parseYMD ("2024-02-29") = true := by decide
example : parseYMD ("2023-02-29") = false := by decide
example : parseYMD ("2023-2-9") = true := by decide
example : parseYMD ("23-02-09") = false := by decide
example : parseYMD ("2023-13-01") = false := by decide
example : multiOk [("A"), ("B")] ("A | B") = true := by decide
example : multiOk [("a|b")] ("a|b") = false := by decide

-- end-to-end example from the spec: [{"question":"Age?","options":[]}]
example :
    normalize_questions (.vlist [.vdict [(("question"), .vstr ("Age?")), (("options"), .vlist [])]]) =
      [⟨1, ("age"), ("Age?"), (""), ("text"), true, none⟩] := by decide

-- two labels both slugifying to "q" get keys "q" and "q_2"
example :
    (normalize_questions (.vlist [.vdict [(("question"), .vstr ("q"))],
        .vdict [(("question"), .vstr ("Q!"))]])).map Question.key = [("q"), ("q_2")] := by
  decide

-- a skipped (non-dict) first element: the survivor keeps id 2
example :
    (normalize_questions (.vlist [.vstr ("x"),
        .vdict [(("question"), .vstr ("Age?"))]])).map Question.id = [2] := by decide

example : slugify ("Age?") = ("age") := by decide
example : slugify ("  Héllo  Wörld! ") = ("h_llo_w_rld") := by decide
example : slugify ("___") = ("question") := by decide
example : slugify ("question") = ("question") := by decide
example : slugify ("") = ("question") := by decide

/-! ### Characterization of `slugify`'s output -/

theorem isSlugChar_not_ws {c : Char} (h : isSlugChar c = true) :
    c.isWhitespace = false := by
  cases hw : c.isWhitespace with
  | false => rfl
  | true =>
    exfalso
    simp only [Char.isWhitespace, Bool.or_eq_true, decide_eq_true_eq] at hw
    rcases hw with ((h1 | h1) | h1) | h1 <;> subst h1 <;> exact absurd h (by decide)

theorem isSlugChar_iff {c : Char} : isSlugChar c = true ↔
    (97 ≤ c.toNat ∧ c.toNat ≤ 122) ∨ (48 ≤ c.toNat ∧ c.toNat ≤ 57) ∨ c.toNat = 95 := by
  simp [isSlugChar, Bool.or_eq_true, Bool.and_eq_true, decide_eq_true_eq,
    Nat.beq_eq_true_eq, or_assoc]

theorem isSlugChar_toLower {c : Char} (h : isSlugChar c = true) :
    c.toLower = c := by
  rw [isSlugChar_iff] at h
  simp only [Char.toLower]
  rw [if_neg]
  rcases h with ⟨h1, h2⟩ | ⟨h1, h2⟩ | h1 <;> omega

theorem subBadAux_all_slug (cs : List Char) : ∀ (b : Bool),
    ((subBadAux b cs).all isSlugChar) = true := by
  induction cs with
  | nil => intro b; rfl
  | cons c cs ih =>
    intro b
    simp only [subBadAux]
    split
    · rename_i hgood
      simp [List.all_cons, hgood, ih false]
    · split
      · exact ih true
      · simp [List.all_cons, ih true]
        decide

theorem collapseUndAux_all {p : Char → Bool} (cs : List Char) :
    ∀ (b : Bool), cs.all p = true → ((collapseUndAux b cs).all p) = true := by
  induction cs with
  | nil => intro b _; rfl
  | cons c cs ih =>
    intro b h
    simp only [List.all_cons, Bool.and_eq_true] at h
    simp only [collapseUndAux]
    split
    · rename_i hc
      rw [beq_iff_eq] at hc
      subst hc
      split
      · exact ih true h.2
      · simp [List.all_cons, h.1, ih true h.2]
    · simp [List.all_cons, h.1, ih false h.2]

theorem mem_of_mem_dropWhile {α : Type} {p : α → Bool} {x : α} {l : List α}
    (h : x ∈ l.dropWhile p) : x ∈ l :=
  (List.dropWhile_sublist p).subset h

theorem mem_of_mem_stripUnd {x : Char} {l : List Char} (h : x ∈ stripUnd l) :
    x ∈ l := by
  unfold stripUnd at h
  rw [List.mem_reverse] at h
  have h2 := mem_of_mem_dropWhile h
  rw [List.mem_reverse] at h2
  exact mem_of_mem_dropWhile h2

theorem stripUnd_all {p : Char → Bool} {l : List Char} (h : l.all p = true) :
    (stripUnd l).all p = true := by
  rw [List.all_eq_true] at h ⊢
  exact fun x hx => h x (mem_of_mem_stripUnd hx)

theorem collapseUndAux_chain (cs : List Char) : ∀ (b : Bool),
    (collapseUndAux b cs).Chain' RNU ∧
      (b = true → (collapseUndAux b cs).head? ≠ some '_') := by
  induction cs with
  | nil => intro b; exact ⟨List.chain'_nil, fun _ => by simp [collapseUndAux]⟩
  | cons c cs ih =>
    intro b
    simp only [collapseUndAux]
    split
    · rename_i hc
      rw [beq_iff_eq] at hc
      subst hc
      split
      · exact ⟨(ih true).1, fun _ => (ih true).2 rfl⟩
      · refine ⟨List.chain'_cons'.mpr ⟨?_, (ih true).1⟩, ?_⟩
        · intro y hy
          right
          intro hy'
          subst hy'
          exact (ih true).2 rfl hy
        · rename_i hb
          intro h'
          exact absurd h' hb
    · rename_i hc
      have hc' : c ≠ '_' := by simpa using hc
      refine ⟨List.chain'_cons'.mpr ⟨fun y _ => Or.inl hc', (ih false).1⟩, ?_⟩
      intro _ h
      simp only [List.head?_cons, Option.some_inj] at h
      exact hc' h

theorem RNU_symm {a b : Char} (h : RNU a b) : RNU b a := h.symm

theorem chain'_stripUnd {l : List Char} (h : l.Chain' RNU) :
    (stripUnd l).Chain' RNU := by
  unfold stripUnd
  have h1 : (l.dropWhile (fun c => c == '_')).Chain' RNU :=
    h.suffix (List.dropWhile_suffix _)
  have h2 : ((l.dropWhile (fun c => c == '_')).reverse).Chain' RNU := by
    rw [List.chain'_reverse]
    exact h1.imp (fun a b hab => RNU_symm hab)
  have h3 := h2.suffix (List.dropWhile_suffix (fun c => c == '_'))
  rw [List.chain'_reverse]
  exact h3.imp (fun a b hab => RNU_symm hab)

theorem dropWhile_head?_false {α : Type} {p : α → Bool} {l : List α} {c : α}
    (h : (l.dropWhile p).head? = some c) : p c = false := by
  induction l with
  | nil => simp [List.dropWhile_nil] at h
  | cons a l ih =>
    rw [List.dropWhile_cons] at h
    by_cases hp : p a
    · rw [if_pos hp] at h
      exact ih h
    · rw [if_neg hp] at h
      simp only [List.head?_cons, Option.some_inj] at h
      subst h
      exact Bool.eq_false_iff.mpr hp

theorem stripUnd_getLast? {l : List Char} : (stripUnd l).getLast? ≠ some '_' := by
  unfold stripUnd
  rw [List.getLast?_reverse]
  intro h
  have := dropWhile_head?_false h
  simp at this

theorem stripUnd_head? {l : List Char} : (stripUnd l).head? ≠ some '_' := by
  intro h
  unfold stripUnd at h
  rw [List.head?_reverse] at h
  obtain ⟨t, ht⟩ :=
    List.dropWhile_suffix (l := (l.dropWhile (fun c => c == '_')).reverse)
      (fun c => c == '_')
  have h1 : ((l.dropWhile (fun c => c == '_')).reverse).getLast? = some '_' := by
    rw [← ht, List.getLast?_append, h]
    rfl
  rw [List.getLast?_reverse] at h1
  have := dropWhile_head?_false h1
  simp at this

theorem dropWhile_eq_self_of_head {α : Type} {p : α → Bool} {l : List α}
    (h : ∀ c, l.head? = some c → p c = false) : l.dropWhile p = l := by
  cases l with
  | nil => rfl
  | cons a l =>
    rw [List.dropWhile_cons, if_neg]
    simp [h a rfl]

theorem mem_of_head? {α : Type} {l : List α} {c : α} (h : l.head? = some c) :
    c ∈ l := by
  cases l with
  | nil => exact Option.noConfusion h
  | cons a l =>
    simp only [List.head?_cons, Option.some_inj] at h
    exact h ▸ List.mem_cons_self a l

theorem mem_of_getLast? {α : Type} {l : List α} {c : α} (h : l.getLast? = some c) :
    c ∈ l := by
  rw [← List.head?_reverse] at h
  exact List.mem_reverse.mp (mem_of_head? h)

theorem pyStrip_eq_self {l : List Char}
    (h1 : ∀ c, l.head? = some c → c.isWhitespace = false)
    (h2 : ∀ c, l.getLast? = some c → c.isWhitespace = false) :
    pyStrip l = l := by
  unfold pyStrip
  rw [dropWhile_eq_self_of_head h1]
  rw [dropWhile_eq_self_of_head (fun c hc => h2 c (List.head?_reverse l ▸ hc))]
  exact List.reverse_reverse l

theorem stripUnd_eq_self {l : List Char} (h1 : l.head? ≠ some '_')
    (h2 : l.getLast? ≠ some '_') : stripUnd l = l := by
  unfold stripUnd
  have e1 : ∀ c : Char, l.head? = some c → (c == '_') = false := by
    intro c hc
    cases hb : (c == '_') with
    | false => rfl
    | true =>
      rw [beq_iff_eq] at hb
      exact absurd (hb ▸ hc) h1
  rw [dropWhile_eq_self_of_head e1]
  have e2 : ∀ c : Char, l.reverse.head? = some c → (c == '_') = false := by
    intro c hc
    rw [List.head?_reverse] at hc
    cases hb : (c == '_') with
    | false => rfl
    | true =>
      rw [beq_iff_eq] at hb
      exact absurd (hb ▸ hc) h2
  rw [dropWhile_eq_self_of_head e2]
  exact List.reverse_reverse l

theorem subBadAux_eq_self {l : List Char} (h : l.all isSlugChar = true) :
    ∀ b, subBadAux b l = l := by
  induction l with
  | nil => intro b; rfl
  | cons c cs ih =>
    intro b
    simp only [List.all_cons, Bool.and_eq_true] at h
    simp only [subBadAux]
    rw [if_pos h.1]
    rw [ih h.2 false]

theorem collapseUndAux_eq_self : ∀ (l : List Char), l.Chain' RNU →
    (collapseUndAux false l = l ∧
      (l.head? ≠ some '_' → collapseUndAux true l = l)) := by
  intro l
  induction l with
  | nil => exact fun _ => ⟨rfl, fun _ => rfl⟩
  | cons c cs ih =>
    intro hchain
    rw [List.chain'_cons'] at hchain
    obtain ⟨hrel, hcs⟩ := hchain
    have ihcs := ih hcs
    by_cases hc : c = '_'
    · subst hc
      have hhead : cs.head? ≠ some '_' := by
        intro hh
        rcases hrel '_' hh with h | h <;> exact h rfl
      constructor
      · have hx : collapseUndAux true cs = cs := ihcs.2 hhead
        simp [collapseUndAux, hx]
      · intro habs
        simp only [List.head?_cons] at habs
        exact absurd rfl habs
    · have hbeq : (c == '_') = false := beq_eq_false_iff_ne.mpr hc
      constructor
      · simp only [collapseUndAux, hbeq]
        simp [ihcs.1]
      · intro _
        simp only [collapseUndAux, hbeq]
        simp [ihcs.1]

theorem slugifyL_all_slug (cs : List Char) :
    (slugifyL cs).all isSlugChar = true := by
  unfold slugifyL subBad collapseUnd
  exact stripUnd_all (collapseUndAux_all _ false (subBadAux_all_slug _ false))

theorem slugifyL_chain (cs : List Char) : (slugifyL cs).Chain' RNU := by
  unfold slugifyL collapseUnd
  exact chain'_stripUnd ((collapseUndAux_chain _ false).1)

theorem slugifyL_fix {l : List Char} (hall : l.all isSlugChar = true)
    (hchain : l.Chain' RNU) (h1 : l.head? ≠ some '_')
    (h2 : l.getLast? ≠ some '_') : slugifyL l = l := by
  unfold slugifyL subBad collapseUnd
  have hws1 : ∀ c : Char, l.head? = some c → c.isWhitespace = false := by
    intro c hc
    exact isSlugChar_not_ws (List.all_eq_true.mp hall c (mem_of_head? hc))
  have hws2 : ∀ c : Char, l.getLast? = some c → c.isWhitespace = false := by
    intro c hc
    exact isSlugChar_not_ws (List.all_eq_true.mp hall c (mem_of_getLast? hc))
  rw [pyStrip_eq_self hws1 hws2]
  have hmap : l.map Char.toLower = l := by
    have := List.map_congr_left (l := l) (f := Char.toLower) (g := id)
      (fun c hc => isSlugChar_toLower (List.all_eq_true.mp hall c hc))
    rw [this, List.map_id]
  rw [hmap, subBadAux_eq_self hall false, (collapseUndAux_eq_self l hchain).1,
    stripUnd_eq_self h1 h2]

theorem slugify_good (s : String) :
    (slugify s).data.all isSlugChar = true ∧ slugify s ≠ "" := by
  unfold slugify
  by_cases h : (slugifyL s.data).isEmpty
  · rw [if_pos h]
    exact ⟨by decide, by decide⟩
  · rw [if_neg h]
    refine ⟨slugifyL_all_slug s.data, ?_⟩
    intro habs
    have : slugifyL s.data = [] := congrArg String.data habs
    rw [this] at h
    exact h rfl

/-- `slugify` never returns the empty string. -/
theorem slugify_ne_empty (s : String) : slugify s ≠ "" := (slugify_good s).2

theorem slugify_slugifyL (s : String) (h : ¬(slugifyL s.data).isEmpty = true) :
    slugify s = String.mk (slugifyL s.data) := by
  unfold slugify
  rw [if_neg h]

theorem slugifyL_head? (cs : List Char) : (slugifyL cs).head? ≠ some '_' := by
  unfold slugifyL
  exact stripUnd_head?

theorem slugifyL_getLast? (cs : List Char) : (slugifyL cs).getLast? ≠ some '_' := by
  unfold slugifyL
  exact stripUnd_getLast?

/-- `slugify` is idempotent. -/
theorem slugify_idempotent (s : String) : slugify (slugify s) = slugify s := by
  by_cases h : (slugifyL s.data).isEmpty
  · have hs : slugify s = "question" := by
      unfold slugify
      rw [if_pos h]
    rw [hs]
    decide
  · have hs : slugify s = String.mk (slugifyL s.data) := slugify_slugifyL s h
    rw [hs]
    unfold slugify
    have hdata : (String.mk (slugifyL s.data)).data = slugifyL s.data := rfl
    rw [hdata]
    rw [slugifyL_fix (slugifyL_all_slug s.data) (slugifyL_chain s.data)
      (slugifyL_head? s.data) (slugifyL_getLast? s.data)]
    rw [if_neg h]

/-! ### `slugify` on strings of non-alphanumeric characters -/

theorem pyNotAlnum_toLower {c : Char} (h : pyIsAlnumChar c = false) :
    c.toLower = c := by
  simp only [Char.toLower]
  rw [if_neg]
  intro hc
  have hup : pyIsAlnumChar c = true := by
    simp only [pyIsAlnumChar, Bool.or_eq_true, Bool.and_eq_true, decide_eq_true_eq]
    omega
  rw [hup] at h
  exact Bool.noConfusion h

theorem pyNotAlnum_slug {c : Char} (h : pyIsAlnumChar c = false)
    (hs : isSlugChar c = true) : c.toNat = 95 := by
  have h' : ¬((65 ≤ c.toNat ∧ c.toNat ≤ 90) ∨ (97 ≤ c.toNat ∧ c.toNat ≤ 122) ∨
      (48 ≤ c.toNat ∧ c.toNat ≤ 57)) := by
    intro hcon
    have hT : pyIsAlnumChar c = true := by
      simp only [pyIsAlnumChar, Bool.or_eq_true, Bool.and_eq_true,
        decide_eq_true_eq, or_assoc]
      exact hcon
    rw [hT] at h
    exact Bool.noConfusion h
  rw [isSlugChar_iff] at hs
  rcases hs with ⟨h1, h2⟩ | ⟨h1, h2⟩ | h1 <;> [(exact absurd (Or.inr (Or.inl ⟨h1, h2⟩)) h');
    (exact absurd (Or.inr (Or.inr ⟨h1, h2⟩)) h'); (exact h1)]

theorem mem_of_mem_pyStrip {x : Char} {l : List Char} (h : x ∈ pyStrip l) :
    x ∈ l := by
  unfold pyStrip at h
  rw [List.mem_reverse] at h
  have h2 := mem_of_mem_dropWhile h
  rw [List.mem_reverse] at h2
  exact mem_of_mem_dropWhile h2

theorem subBadAux_all_und {cs : List Char}
    (h : ∀ c ∈ cs, isSlugChar c = true → c.toNat = 95) :
    ∀ b, ((subBadAux b cs).all (fun c => c == '_')) = true := by
  induction cs with
  | nil => intro b; rfl
  | cons c cs ih =>
    intro b
    have htail := ih (fun d hd => h d (List.mem_cons_of_mem c hd))
    simp only [subBadAux]
    split
    · rename_i hgood
      have h95 : c.toNat = 95 := h c (List.mem_cons_self c cs) hgood
      have hc : c = '_' := by
        have : c.val = ('_' : Char).val := by
          have h1 : c.val.toNat = 95 := h95
          have h2 : ('_' : Char).val.toNat = 95 := by decide
          exact UInt32.toNat.inj (h1.trans h2.symm)
        exact Char.ext this
      subst hc
      simp [List.all_cons, htail false]
    · split
      · exact htail true
      · simp [List.all_cons, htail true]

theorem collapseUndAux_true_und {cs : List Char}
    (h : cs.all (fun c => c == '_') = true) : collapseUndAux true cs = [] := by
  induction cs with
  | nil => rfl
  | cons c cs ih =>
    simp only [List.all_cons, Bool.and_eq_true] at h
    simp only [collapseUndAux]
    simp only [h.1, if_true]
    exact ih h.2

/-- A string all of whose characters are non-alphanumeric slugifies to the
fallback `"question"`. -/
theorem slugify_nonalnum {s : String}
    (h : ∀ c ∈ s.data, pyIsAlnumChar c = false) : slugify s = "question" := by
  unfold slugify
  rw [if_pos ?hempty]
  case hempty =>
    unfold slugifyL subBad collapseUnd
    have htmem : ∀ c ∈ (pyStrip s.data).map Char.toLower, pyIsAlnumChar c = false := by
      intro c hc
      rw [List.mem_map] at hc
      obtain ⟨d, hd, hdc⟩ := hc
      have hd' : pyIsAlnumChar d = false := h d (mem_of_mem_pyStrip hd)
      rw [← hdc, pyNotAlnum_toLower hd']
      exact hd'
    have hund : ((subBadAux false ((pyStrip s.data).map Char.toLower)).all
        (fun c => c == '_')) = true :=
      subBadAux_all_und (fun c hc hs => pyNotAlnum_slug (htmem c hc) hs) false
    cases hu : subBadAux false ((pyStrip s.data).map Char.toLower) with
    | nil => decide
    | cons c cs =>
      rw [hu] at hund
      rw [List.all_cons, Bool.and_eq_true] at hund
      obtain ⟨hc1, hc2⟩ := hund
      have hc : c = '_' := by rwa [beq_iff_eq] at hc1
      subst hc
      simp only [collapseUndAux]
      simp only [beq_self_eq_true, if_true, Bool.false_eq_true, if_false]
      rw [collapseUndAux_true_und hc2]
      decide

/-! ### Decimal representation: injectivity and character set -/

theorem natDigitsRevFuel_irrel : ∀ (f g n : Nat), n < f → n < g →
    natDigitsRevFuel f n = natDigitsRevFuel g n := by
  intro f
  induction f with
  | zero => intro g n h; omega
  | succ f ih =>
    intro g n hf hg
    cases g with
    | zero => omega
    | succ g =>
      simp only [natDigitsRevFuel]
      by_cases h10 : n < 10
      · rw [if_pos h10, if_pos h10]
      · rw [if_neg h10, if_neg h10]
        have hdiv : n / 10 < n := Nat.div_lt_self (by omega) (by omega)
        rw [ih g (n / 10) (by omega) (by omega)]

theorem natDigitsRevFuel_ne_nil {f n : Nat} (h : 0 < f) :
    natDigitsRevFuel f n ≠ [] := by
  cases f with
  | zero => omega
  | succ f =>
    simp only [natDigitsRevFuel]
    split <;> simp

theorem digitChar_inj_lt {a b : Nat} (ha : a < 10) (hb : b < 10)
    (h : Nat.digitChar a = Nat.digitChar b) : a = b := by
  have hfin : ∀ (x y : Fin 10), Nat.digitChar x.val = Nat.digitChar y.val → x = y := by
    decide
  exact congrArg Fin.val (hfin ⟨a, ha⟩ ⟨b, hb⟩ h)

theorem digitChar_slug {n : Nat} (h : n < 10) :
    isSlugChar (Nat.digitChar n) = true := by
  have hfin : ∀ (x : Fin 10), isSlugChar (Nat.digitChar x.val) = true := by decide
  exact hfin ⟨n, h⟩

theorem natDigitsRevFuel_all_slug (f : Nat) : ∀ (n : Nat),
    (natDigitsRevFuel f n).all isSlugChar = true := by
  induction f with
  | zero => intro n; rfl
  | succ f ih =>
    intro n
    simp only [natDigitsRevFuel]
    by_cases h10 : n < 10
    · rw [if_pos h10]
      simp [digitChar_slug h10]
    · rw [if_neg h10]
      simp [List.all_cons, digitChar_slug (Nat.mod_lt n (by omega)), ih (n / 10)]

theorem natDigitsRev_inj : ∀ (f a b : Nat), a < f →
    natDigitsRevFuel (a+1) a = natDigitsRevFuel (b+1) b → a = b := by
  intro f
  induction f with
  | zero => intro a b h; omega
  | succ f ih =>
    intro a b ha h
    simp only [natDigitsRevFuel] at h
    by_cases ha10 : a < 10 <;> by_cases hb10 : b < 10
    · rw [if_pos ha10, if_pos hb10] at h
      have hh := congrArg List.head? h
      simp only [List.head?_cons, Option.some_inj] at hh
      exact digitChar_inj_lt ha10 hb10 hh
    · rw [if_pos ha10, if_neg hb10] at h
      exfalso
      have := congrArg List.tail h
      simp only [List.tail_cons] at this
      exact natDigitsRevFuel_ne_nil (by omega) this.symm
    · rw [if_neg ha10, if_pos hb10] at h
      exfalso
      have := congrArg List.tail h
      simp only [List.tail_cons] at this
      exact natDigitsRevFuel_ne_nil (n := a / 10) (by omega) this
    · rw [if_neg ha10, if_neg hb10] at h
      have hhead := congrArg List.head? h
      simp only [List.head?_cons, Option.some_inj] at hhead
      have hmod : a % 10 = b % 10 :=
        digitChar_inj_lt (Nat.mod_lt a (by omega)) (Nat.mod_lt b (by omega)) hhead
      have htail := congrArg List.tail h
      simp only [List.tail_cons] at htail
      have hda : a / 10 < a := Nat.div_lt_self (by omega) (by omega)
      have hdb : b / 10 < b := Nat.div_lt_self (by omega) (by omega)
      rw [natDigitsRevFuel_irrel a (a/10 + 1) (a/10) (by omega) (by omega),
        natDigitsRevFuel_irrel b (b/10 + 1) (b/10) (by omega) (by omega)] at htail
      have hdiv : a / 10 = b / 10 := ih (a/10) (b/10) (by omega) htail
      omega

theorem natRepr_inj {a b : Nat} (h : natRepr a = natRepr b) : a = b := by
  unfold natRepr at h
  have hd := congrArg String.data h
  simp only [List.reverse_inj] at hd
  exact natDigitsRev_inj (a + 1) a b (by omega) hd

theorem natRepr_all_slug (n : Nat) : (natRepr n).data.all isSlugChar = true := by
  unfold natRepr
  show ((natDigitsRevFuel (n+1) n).reverse.all isSlugChar) = true
  rw [List.all_reverse]
  exact natDigitsRevFuel_all_slug (n+1) n

/-! ### The deduplication loop -/

theorem candKey_inj {base : String} {n m : Nat}
    (h : candKey base n = candKey base m) : n = m := by
  unfold candKey at h
  have hd := congrArg String.data h
  simp only [String.data_append] at hd
  have h2 := List.append_cancel_left hd
  exact natRepr_inj (String.ext h2)

theorem candKey_good {base : String} (hb : base.data.all isSlugChar = true)
    (n : Nat) : candKey base n ≠ "" ∧ (candKey base n).data.all isSlugChar = true := by
  constructor
  · intro habs
    have hd := congrArg String.data habs
    simp only [String.data_append, candKey] at hd
    have : (natRepr n).data ≠ [] := by
      unfold natRepr
      show (natDigitsRevFuel (n+1) n).reverse ≠ []
      simp only [ne_eq, List.reverse_eq_nil_iff]
      exact natDigitsRevFuel_ne_nil (by omega)
    rcases List.append_eq_nil.mp hd with ⟨hleft, hright⟩
    exact this hright
  · show ((base ++ "_" ++ natRepr n).data.all isSlugChar) = true
    simp only [String.data_append, List.all_append, Bool.and_eq_true]
    exact ⟨⟨hb, by decide⟩, natRepr_all_slug n⟩

theorem freshLoop_spec (used : List String) (base : String) :
    ∀ (fuel n : Nat), (∃ j, j < fuel ∧ candKey base (n + j) ∉ used) →
      ∃ j, j < fuel ∧ freshLoop used base fuel n = candKey base (n + j) ∧
        candKey base (n + j) ∉ used ∧ ∀ j', j' < j → candKey base (n + j') ∈ used := by
  intro fuel
  induction fuel with
  | zero =>
    intro n h
    obtain ⟨j, hj, _⟩ := h
    omega
  | succ fuel ih =>
    intro n h
    obtain ⟨j, hj, hfree⟩ := h
    simp only [freshLoop]
    by_cases hc : candKey base n ∈ used
    · rw [if_pos hc]
      have hjpos : j ≠ 0 := by
        intro h0
        subst h0
        rw [Nat.add_zero] at hfree
        exact hfree hc
      obtain ⟨j2, h1, h2, h3, h4⟩ := ih (n + 1)
        ⟨j - 1, by omega, by rw [show n + 1 + (j - 1) = n + j by omega]; exact hfree⟩
      refine ⟨j2 + 1, by omega, ?_, ?_, ?_⟩
      · rw [show n + (j2 + 1) = n + 1 + j2 by omega]
        exact h2
      · rw [show n + (j2 + 1) = n + 1 + j2 by omega]
        exact h3
      · intro j' hj'
        cases j' with
        | zero => rw [Nat.add_zero]; exact hc
        | succ j3 =>
          rw [show n + (j3 + 1) = n + 1 + j3 by omega]
          exact h4 j3 (by omega)
    · rw [if_neg hc]
      exact ⟨0, by omega, by rw [Nat.add_zero], by rw [Nat.add_zero]; exact hc,
        fun j' hj' => absurd hj' (by omega)⟩

theorem fresh_exists (used : List String) (base : String) (start : Nat) :
    ∃ j, j < used.length + 1 ∧ candKey base (start + j) ∉ used := by
  by_contra hcon
  push_neg at hcon
  have hsub : ((List.range (used.length + 1)).map
      (fun j => candKey base (start + j))) ⊆ used := by
    intro x hx
    rw [List.mem_map] at hx
    obtain ⟨j, hj, rfl⟩ := hx
    exact hcon j (List.mem_range.mp hj)
  have hnd : ((List.range (used.length + 1)).map
      (fun j => candKey base (start + j))).Nodup := by
    refine List.Nodup.map_on ?_ (List.nodup_range _)
    intro x _ y _ hxy
    have := candKey_inj hxy
    omega
  have hle := (hnd.subperm hsub).length_le
  rw [List.length_map, List.length_range] at hle
  omega

theorem dedupKey_not_mem (used : List String) (key : String) :
    dedupKey used key ∉ used := by
  unfold dedupKey
  by_cases hc : key ∈ used
  · rw [if_pos hc]
    obtain ⟨j, h1, h2, h3, _⟩ :=
      freshLoop_spec used key (used.length + 1) 2 (fresh_exists used key 2)
    rw [h2]
    exact h3
  · rw [if_neg hc]
    exact hc

theorem dedupKey_eq_of_not_mem {used : List String} {key : String}
    (h : key ∉ used) : dedupKey used key = key := by
  unfold dedupKey
  rw [if_neg h]

theorem dedupKey_first_fresh {used : List String} {key : String}
    (h : key ∈ used) :
    ∃ n, 2 ≤ n ∧ dedupKey used key = candKey key n ∧ candKey key n ∉ used ∧
      ∀ m, 2 ≤ m → m < n → candKey key m ∈ used := by
  obtain ⟨j, h1, h2, h3, h4⟩ :=
    freshLoop_spec used key (used.length + 1) 2 (fresh_exists used key 2)
  refine ⟨2 + j, by omega, ?_, h3, ?_⟩
  · unfold dedupKey
    rw [if_pos h]
    exact h2
  · intro m hm1 hm2
    have := h4 (m - 2) (by omega)
    rwa [show 2 + (m - 2) = m by omega] at this

theorem dedupKey_good {used : List String} {key : String} (hk : key ≠ "")
    (hs : key.data.all isSlugChar = true) :
    dedupKey used key ≠ "" ∧ (dedupKey used key).data.all isSlugChar = true := by
  by_cases hc : key ∈ used
  · obtain ⟨n, _, h2, _, _⟩ := dedupKey_first_fresh hc
    rw [h2]
    exact candKey_good hs n
  · rw [dedupKey_eq_of_not_mem hc]
    exact ⟨hk, hs⟩

/-! ### Invariants of `normalize_questions` -/

theorem mkEntry_key {i : Nat} {key label desc qtype : String} {req : Bool}
    {options : Val} {p : PreQ}
    (h : mkEntry i key label desc qtype req options = some p) :
    ∃ s, p.key = slugify s := by
  unfold mkEntry at h
  split at h
  · exact Option.noConfusion h
  · simp only [Option.some_inj] at h
    exact ⟨_, by rw [← h]⟩

theorem normEntry_key_slug {i : Nat} {v : Val} {p : PreQ}
    (h : normEntry i v = some p) : ∃ s, p.key = slugify s := by
  cases v with
  | vdict q =>
    simp only [normEntry] at h
    by_cases hc : (hasKey q ("key") && (hasKey q ("label") || hasKey q ("question"))) = true
    · rw [if_pos hc] at h
      exact mkEntry_key h
    · rw [if_neg hc] at h
      exact mkEntry_key h
  | vnull => simp [normEntry] at h
  | vbool b => simp [normEntry] at h
  | vnum n => simp [normEntry] at h
  | vstr s => simp [normEntry] at h
  | vlist l => simp [normEntry] at h

theorem normLoop_keys : ∀ (l : List Val) (i : Nat) (used : List String),
    ((normLoop i used l).map Question.key).Nodup ∧
      ∀ k ∈ (normLoop i used l).map Question.key,
        k ∉ used ∧ k ≠ "" ∧ k.data.all isSlugChar = true := by
  intro l
  induction l with
  | nil => intro i used; exact ⟨List.nodup_nil, by simp [normLoop]⟩
  | cons v rest ih =>
    intro i used
    simp only [normLoop]
    cases he : normEntry i v with
    | none => exact ih (i+1) used
    | some p =>
      obtain ⟨s, hs⟩ := normEntry_key_slug he
      have hgood := slugify_good s
      have hkgood : dedupKey used p.key ≠ "" ∧
          (dedupKey used p.key).data.all isSlugChar = true := by
        rw [hs]
        exact dedupKey_good hgood.2 hgood.1
      have hknot : dedupKey used p.key ∉ used := dedupKey_not_mem used p.key
      obtain ⟨ihnd, ihmem⟩ := ih (i+1) (dedupKey used p.key :: used)
      simp only [List.map_cons]
      constructor
      · rw [List.nodup_cons]
        refine ⟨?_, ihnd⟩
        intro hmem
        exact (ihmem _ hmem).1 (List.mem_cons_self _ _)
      · intro k hk
        rcases List.mem_cons.mp hk with hk | hk
        · rw [hk]
          exact ⟨hknot, hkgood.1, hkgood.2⟩
        · have h3 := ihmem k hk
          exact ⟨fun hku => h3.1 (List.mem_cons_of_mem _ hku), h3.2.1, h3.2.2⟩

theorem normLoop_ids : ∀ (l : List Val) (i : Nat) (used : List String),
    (normLoop i used l).map Question.id = keptIds i l := by
  intro l
  induction l with
  | nil => intro i used; rfl
  | cons v rest ih =>
    intro i used
    simp only [normLoop, keptIds]
    cases he : normEntry i v with
    | none => simp [ih]
    | some p => simp [ih]

theorem keptIds_bounds : ∀ (l : List Val) (i : Nat), ∀ x ∈ keptIds i l,
    i ≤ x ∧ x < i + l.length := by
  intro l
  induction l with
  | nil => intro i x hx; exact absurd hx (List.not_mem_nil x)
  | cons v rest ih =>
    intro i x hx
    simp only [keptIds] at hx
    by_cases hv : (normEntry i v).isSome
    · rw [if_pos hv] at hx
      rcases List.mem_cons.mp hx with hx | hx
      · subst hx
        simp only [List.length_cons]
        omega
      · have := ih (i+1) x hx
        simp only [List.length_cons]
        omega
    · rw [if_neg hv] at hx
      have := ih (i+1) x hx
      simp only [List.length_cons]
      omega

theorem keptIds_chain : ∀ (l : List Val) (i : Nat),
    (keptIds i l).Chain' (fun a b => a < b) := by
  intro l
  induction l with
  | nil => intro i; exact List.chain'_nil
  | cons v rest ih =>
    intro i
    simp only [keptIds]
    by_cases hv : (normEntry i v).isSome
    · rw [if_pos hv]
      rw [List.chain'_cons']
      refine ⟨?_, ih (i+1)⟩
      intro y hy
      have := keptIds_bounds rest (i+1) y (mem_of_head? hy)
      omega
    · rw [if_neg hv]
      exact ih (i+1)

theorem normalize_vlist (l : List Val) :
    normalize_questions (.vlist l) = normLoop 1 [] l := rfl

/-! ### Decomposition of the validation pass -/

theorem errList_cons_ok {form : Form} {q : Question} {qs : List Question}
    {kv : String × String} (hkv : checkQuestion form q = .ok kv) :
    errList form (q :: qs) = errList form qs := by
  unfold errList
  rw [List.filterMap_cons, hkv]

theorem errList_cons_error {form : Form} {q : Question} {qs : List Question}
    {e : String} (he : checkQuestion form q = .error e) :
    errList form (q :: qs) = e :: errList form qs := by
  unfold errList
  rw [List.filterMap_cons, he]

theorem validateAux_spec (form : Form) : ∀ (qs : List Question)
    (ans : List (String × String)) (errs : List String),
    validateAux form ans errs qs = (ansFold form ans qs, errs ++ errList form qs) := by
  intro qs
  induction qs with
  | nil => intro ans errs; simp [validateAux, ansFold, errList]
  | cons q qs ih =>
    intro ans errs
    simp only [validateAux]
    cases hc : checkQuestion form q with
    | error e =>
      dsimp only
      rw [ih, errList_cons_error hc]
      simp only [ansFold, hc]
      rw [List.append_assoc]
      rfl
    | ok kv =>
      cases kv with
      | mk k v =>
        dsimp only
        rw [ih, errList_cons_ok hc]
        simp only [ansFold, hc]

theorem validate_spec (qs : List Question) (form : Form) :
    validate qs form = (ansFold form [] qs, errList form qs) := by
  unfold validate
  rw [validateAux_spec]
  simp

theorem errList_append (form : Form) (xs ys : List Question) :
    errList form (xs ++ ys) = errList form xs ++ errList form ys := by
  unfold errList
  exact List.filterMap_append xs ys _

theorem ansFold_append (form : Form) : ∀ (xs ys : List Question)
    (ans : List (String × String)),
    ansFold form ans (xs ++ ys) = ansFold form (ansFold form ans xs) ys := by
  intro xs
  induction xs with
  | nil => intro ys ans; rfl
  | cons q xs ih =>
    intro ys ans
    simp only [List.cons_append, ansFold]
    cases hc : checkQuestion form q with
    | error e => exact ih ys ans
    | ok kv =>
      cases kv with
      | mk k v => exact ih ys _

theorem checkQuestion_ok_key {form : Form} {q : Question} {k v : String}
    (h : checkQuestion form q = .ok (k, v)) : k = q.key := by
  simp only [checkQuestion] at h
  repeat' split at h
  all_goals first
    | exact Except.noConfusion h
    | (injection h with h1; cases h1; rfl)

theorem checkQuestion_required_empty {form : Form} {q : Question}
    (hreq : q.required = true) (hval : readValue form q = "") :
    checkQuestion form q = .error (apos ++ q.label ++ apos ++ " est obligatoire.") := by
  simp [checkQuestion, hval, hreq]

theorem checkQuestion_number {form : Form} {q : Question}
    (hq : q.qtype = "number") (hval : readValue form q ≠ "") :
    checkQuestion form q =
      (if pyFloatParses (commaToDot (readValue form q)) then
        .ok (q.key, readValue form q)
      else .error (apos ++ q.label ++ apos ++ " doit être un nombre valide.")) := by
  have hbe : (readValue form q == "") = false := beq_eq_false_iff_ne.mpr hval
  simp [checkQuestion, hbe, hq]

theorem dset_not_mem {d : List (String × String)} {k v : String}
    (h : k ∉ d.map Prod.fst) : dset d k v = d ++ [(k, v)] := by
  induction d with
  | nil => rfl
  | cons p d ih =>
    cases p with
    | mk k' v' =>
      simp only [List.map_cons, List.mem_cons] at h
      push_neg at h
      simp only [dset]
      rw [if_neg (fun he => h.1 he.symm)]
      rw [ih h.2]
      rfl

theorem ansFold_keys (form : Form) : ∀ (qs : List Question)
    (ans : List (String × String)), errList form qs = [] →
    (qs.map Question.key).Nodup →
    (∀ q ∈ qs, q.key ∉ ans.map Prod.fst) →
    (ansFold form ans qs).map Prod.fst = ans.map Prod.fst ++ qs.map Question.key := by
  intro qs
  induction qs with
  | nil => intro ans _ _ _; simp [ansFold]
  | cons q qs ih =>
    intro ans herr hnd hmem
    have hok : ∃ kv, checkQuestion form q = .ok kv := by
      cases hc : checkQuestion form q with
      | error e =>
        rw [errList_cons_error hc] at herr
        exact absurd herr (by simp)
      | ok kv => exact ⟨kv, rfl⟩
    obtain ⟨⟨k, v⟩, hkv⟩ := hok
    have hk : k = q.key := checkQuestion_ok_key hkv
    subst hk
    have herr' : errList form qs = [] := by
      rw [errList_cons_ok hkv] at herr
      exact herr
    have hset : dset ans q.key v = ans ++ [(q.key, v)] :=
      dset_not_mem (hmem q (List.mem_cons_self q qs))
    simp only [List.map_cons, List.nodup_cons] at hnd
    simp only [ansFold, hkv]
    rw [ih (dset ans q.key v) herr' hnd.2 ?hmem2]
    · rw [hset]
      simp [List.map_append]
    case hmem2 =>
      intro q' hq'
      rw [hset, List.map_append]
      simp only [List.mem_append, List.map_cons, List.map_nil, List.mem_singleton,
        List.mem_cons]
      push_neg
      constructor
      · exact hmem q' (List.mem_cons_of_mem q hq')
      · simp only [not_or, List.not_mem_nil]
        refine ⟨?_, fun hf => hf⟩
        intro hkey
        exact hnd.1 (hkey ▸ List.mem_map_of_mem Question.key hq')

theorem validate_all_ok_keys {qs : List Question} {form : Form}
    (hnd : (qs.map Question.key).Nodup) (herr : (validate qs form).2 = []) :
    (validate qs form).1.map Prod.fst = qs.map Question.key := by
  rw [validate_spec] at herr ⊢
  have := ansFold_keys form qs [] herr hnd (by simp)
  simpa using this

/-! ### Split / join round-trip for `multi` answers -/

theorem length_dropWhile_le {α : Type} (p : α → Bool) (l : List α) :
    (l.dropWhile p).length ≤ l.length := by
  obtain ⟨t, ht⟩ := List.dropWhile_suffix (l := l) p
  conv_rhs => rw [← ht]
  rw [List.length_append]
  omega

theorem dropWhile_eq_self_of_length {α : Type} {p : α → Bool} {l : List α}
    (h : (l.dropWhile p).length = l.length) : l.dropWhile p = l := by
  obtain ⟨t, ht⟩ := List.dropWhile_suffix (l := l) p
  have hlen := congrArg List.length ht
  rw [List.length_append] at hlen
  have : t = [] := List.length_eq_zero.mp (by omega)
  rw [this] at ht
  simpa using ht

theorem pyStrip_inner {l : List Char} (h : pyStrip l = l) :
    l.dropWhile Char.isWhitespace = l := by
  apply dropWhile_eq_self_of_length
  have h1 := congrArg List.length h
  unfold pyStrip at h1
  rw [List.length_reverse] at h1
  have h2 := length_dropWhile_le Char.isWhitespace
    ((l.dropWhile Char.isWhitespace).reverse)
  rw [List.length_reverse] at h2
  have h3 := length_dropWhile_le Char.isWhitespace l
  omega

theorem trimmed_head_not_ws {l : List Char} (h : pyStrip l = l) :
    ∀ c, l.head? = some c → c.isWhitespace = false := by
  intro c hc
  have hin := pyStrip_inner h
  rw [← hin] at hc
  exact dropWhile_head?_false hc

theorem trimmed_getLast_not_ws {l : List Char} (h : pyStrip l = l) :
    ∀ c, l.getLast? = some c → c.isWhitespace = false := by
  intro c hc
  have hB : ((l.dropWhile Char.isWhitespace).reverse.dropWhile
      Char.isWhitespace).reverse = l := h
  have hB2 : (l.dropWhile Char.isWhitespace).reverse.dropWhile Char.isWhitespace =
      l.reverse := by
    have := congrArg List.reverse hB
    rwa [List.reverse_reverse] at this
  rw [← List.head?_reverse, ← hB2] at hc
  exact dropWhile_head?_false hc

theorem pySplit_ne_nil (sep : Char) : ∀ (cs : List Char), pySplit sep cs ≠ [] := by
  intro cs
  induction cs with
  | nil => simp [pySplit]
  | cons c cs ih =>
    simp only [pySplit]
    split
    · simp
    · cases hp : pySplit sep cs with
      | nil => simp
      | cons p ps => simp

theorem pySplit_no_sep {sep : Char} : ∀ {cs : List Char}, sep ∉ cs →
    pySplit sep cs = [cs] := by
  intro cs
  induction cs with
  | nil => intro _; rfl
  | cons c cs ih =>
    intro h
    rw [List.mem_cons] at h
    push_neg at h
    simp only [pySplit]
    rw [if_neg (fun he => h.1 he.symm)]
    rw [ih h.2]

theorem pySplit_cons_sep (sep : Char) (cs : List Char) :
    pySplit sep (sep :: cs) = [] :: pySplit sep cs := by
  simp [pySplit]

theorem pySplit_cons_ne {sep c : Char} {cs : List Char} {p : List Char}
    {ps : List (List Char)} (hc : c ≠ sep) (h : pySplit sep cs = p :: ps) :
    pySplit sep (c :: cs) = (c :: p) :: ps := by
  simp only [pySplit]
  rw [if_neg hc, h]

theorem pySplit_append_no_sep {sep : Char} : ∀ {a b : List Char} {p : List Char}
    {ps : List (List Char)}, sep ∉ a → pySplit sep b = p :: ps →
    pySplit sep (a ++ b) = (a ++ p) :: ps := by
  intro a
  induction a with
  | nil =>
    intro b p ps _ hb
    simpa using hb
  | cons c a ih =>
    intro b p ps ha hb
    rw [List.mem_cons] at ha
    push_neg at ha
    rw [List.cons_append]
    rw [pySplit_cons_ne (Ne.symm ha.1) (ih ha.2 hb)]
    rfl

theorem intercalate_single (sep : List Char) (s : List Char) :
    List.intercalate sep [s] = s := by
  simp [List.intercalate]

theorem intercalate_cons_cons' (sep a y : List Char) (zs : List (List Char)) :
    List.intercalate sep (a :: y :: zs) =
      a ++ sep ++ List.intercalate sep (y :: zs) := by
  simp [List.intercalate, List.append_assoc]

theorem intercalate_ne_nil {sep : List Char} {s : List Char}
    {l : List (List Char)} (hs : s ≠ []) :
    List.intercalate sep (s :: l) ≠ [] := by
  cases l with
  | nil =>
    rw [intercalate_single]
    exact hs
  | cons y zs =>
    rw [intercalate_cons_cons']
    simp only [ne_eq, List.append_assoc, List.append_eq_nil]
    intro hcon
    exact hs hcon.1

theorem intercalate_head? {sep : List Char} {s : List Char}
    (l : List (List Char)) (hs : s ≠ []) :
    (List.intercalate sep (s :: l)).head? = s.head? := by
  obtain ⟨c, t, rfl⟩ : ∃ c t, s = c :: t := by
    cases s with
    | nil => exact absurd rfl hs
    | cons c t => exact ⟨c, t, rfl⟩
  cases l with
  | nil => rw [intercalate_single]
  | cons y zs =>
    rw [intercalate_cons_cons']
    simp [List.head?_append]

theorem intercalate_getLast? {sep : List Char} : ∀ (l : List (List Char))
    (s : List Char), (∀ x ∈ l, x ≠ []) →
    ∃ w ∈ s :: l, (List.intercalate sep (s :: l)).getLast? = w.getLast? := by
  intro l
  induction l with
  | nil =>
    intro s _
    refine ⟨s, List.mem_cons_self s [], ?_⟩
    rw [intercalate_single]
  | cons y zs ih =>
    intro s hx
    obtain ⟨w, hwmem, hw⟩ := ih y (fun x hxm => hx x (List.mem_cons_of_mem y hxm))
    refine ⟨w, List.mem_cons_of_mem s hwmem, ?_⟩
    rw [intercalate_cons_cons']
    have hwne : w ≠ [] := hx w hwmem
    have hsome : ∃ c, w.getLast? = some c := by
      cases hgl : w.getLast? with
      | none =>
        rw [List.getLast?_eq_none_iff] at hgl
        exact absurd hgl hwne
      | some c => exact ⟨c, rfl⟩
    obtain ⟨c, hc⟩ := hsome
    rw [List.getLast?_append, hw, hc, Option.or_some]

theorem pyStrip_cons_ws {c : Char} (hc : c.isWhitespace = true) (l : List Char) :
    pyStrip (c :: l) = pyStrip l := by
  unfold pyStrip
  rw [List.dropWhile_cons, if_pos hc]

theorem pyStrip_append_ws {x : List Char} {c : Char} (hc : c.isWhitespace = true) :
    pyStrip (x ++ [c]) = pyStrip x := by
  unfold pyStrip
  rw [List.dropWhile_append]
  by_cases he : (x.dropWhile Char.isWhitespace).isEmpty
  · rw [if_pos he]
    have hx : x.dropWhile Char.isWhitespace = [] := by
      simpa [List.isEmpty_iff] using he
    rw [hx]
    rw [show List.dropWhile Char.isWhitespace [c] = [] by
      rw [List.dropWhile_cons, if_pos hc]; rfl]
  · rw [if_neg he]
    rw [List.reverse_append]
    rw [show ([c] : List Char).reverse = [c] from rfl]
    rw [show ([c] : List Char) ++ (x.dropWhile Char.isWhitespace).reverse =
      c :: (x.dropWhile Char.isWhitespace).reverse from rfl]
    rw [List.dropWhile_cons, if_pos hc]

theorem pySplit_intercalate : ∀ (sels : List (List Char)),
    (∀ s ∈ sels, ('|') ∉ s) →
    ((pySplit '|' (List.intercalate ([' ', '|', ' ']) sels)).map
        (fun p => pyStrip p)).filter (fun v => v ≠ []) =
      (sels.map (fun s => pyStrip s)).filter (fun v => v ≠ []) := by
  intro sels
  induction sels with
  | nil => intro _; rfl
  | cons s sels ih =>
    intro h
    have hs : ('|') ∉ s := h s (List.mem_cons_self s sels)
    cases sels with
    | nil =>
      rw [intercalate_single, pySplit_no_sep hs]
    | cons y zs =>
      have harr : List.intercalate ([' ', '|', ' ']) (s :: y :: zs) =
          (s ++ [' ']) ++ ('|' :: (' ' :: List.intercalate ([' ', '|', ' ']) (y :: zs))) := by
        rw [intercalate_cons_cons']
        simp [List.append_assoc]
      rw [harr]
      have hP := pySplit_ne_nil '|' (List.intercalate ([' ', '|', ' ']) (y :: zs))
      cases hp : pySplit '|' (List.intercalate ([' ', '|', ' ']) (y :: zs)) with
      | nil => exact absurd hp hP
      | cons p ps =>
        have hstep1 : pySplit '|' (' ' :: List.intercalate ([' ', '|', ' ']) (y :: zs)) =
            (' ' :: p) :: ps := pySplit_cons_ne (by decide) hp
        have hstep2 : pySplit '|' ('|' :: (' ' :: List.intercalate ([' ', '|', ' ']) (y :: zs))) =
            [] :: (' ' :: p) :: ps := by
          rw [pySplit_cons_sep, hstep1]
        have hnos : ('|') ∉ s ++ [' '] := by
          intro hmem
          rcases List.mem_append.mp hmem with hmem | hmem
          · exact hs hmem
          · simp at hmem
        have hstep3 : pySplit '|' ((s ++ [' ']) ++
            ('|' :: (' ' :: List.intercalate ([' ', '|', ' ']) (y :: zs)))) =
            ((s ++ [' ']) ++ []) :: (' ' :: p) :: ps :=
          pySplit_append_no_sep hnos hstep2
        rw [hstep3]
        simp only [List.append_nil, List.map_cons]
        rw [pyStrip_append_ws (by decide), pyStrip_cons_ws (by decide)]
        have hih := ih (fun x hx => h x (List.mem_cons_of_mem s hx))
        rw [hp] at hih
        simp only [List.map_cons] at hih
        rw [show (pyStrip s :: pyStrip p :: List.map (fun p => pyStrip p) ps :
            List (List Char)) =
          [pyStrip s] ++ (pyStrip p :: List.map (fun p => pyStrip p) ps) from rfl]
        rw [show (pyStrip s :: pyStrip y :: List.map (fun p => pyStrip p) zs :
            List (List Char)) =
          [pyStrip s] ++ (pyStrip y :: List.map (fun p => pyStrip p) zs) from rfl]
        rw [List.filter_append, List.filter_append, hih]

theorem mk_eq_empty_iff {x : List Char} : String.mk x = "" ↔ x = [] := by
  constructor
  · intro h
    exact congrArg String.data h
  · intro h
    rw [h]

theorem filter_map_mk (L : List (List Char)) :
    ((L.map (fun p => String.mk (pyStrip p))).filter (fun v => v ≠ "")) =
      ((L.map (fun p => pyStrip p)).filter (fun v => v ≠ [])).map String.mk := by
  induction L with
  | nil => rfl
  | cons x L ih =>
    rw [List.map_cons, List.map_cons, List.filter_cons, List.filter_cons]
    by_cases hx : pyStrip x = []
    · rw [if_neg ?c1, if_neg ?c2]
      · exact ih
      case c1 =>
        rw [hx]
        decide
      case c2 =>
        rw [hx]
        decide
    · rw [if_pos ?c3, if_pos ?c4]
      · rw [List.map_cons, ih]
      case c3 =>
        exact decide_eq_true (fun hc => hx (congrArg String.data hc))
      case c4 =>
        exact decide_eq_true hx

theorem multiChosen_joinPipe {sels : List String}
    (h : ∀ s ∈ sels, ('|') ∉ s.data) :
    multiChosen (joinPipe sels) = (sels.map pyStripS).filter (fun v => v ≠ "") := by
  unfold multiChosen joinPipe
  rw [show (String.mk (List.intercalate ([' ', '|', ' ']) (sels.map String.data))).data =
    List.intercalate ([' ', '|', ' ']) (sels.map String.data) from rfl]
  have hlist := pySplit_intercalate (sels.map String.data) ?pipes
  case pipes =>
    intro s hsm
    rw [List.mem_map] at hsm
    obtain ⟨t, ht, rfl⟩ := hsm
    exact h t ht
  rw [filter_map_mk, hlist, ← filter_map_mk]
  rw [List.map_map]
  rfl

theorem contains_true_iff_mem {l : List String} {a : String} :
    l.contains a = true ↔ a ∈ l := by
  rw [List.contains_eq_any_beq, List.any_eq_true]
  constructor
  · rintro ⟨x, hx, hbeq⟩
    rw [beq_iff_eq] at hbeq
    subst hbeq
    exact hx
  · intro hm
    exact ⟨a, hm, by simp⟩

theorem formGetlist_map (key : String) (sels : List String) :
    formGetlist (sels.map (fun s => (key, s))) key = sels := by
  induction sels with
  | nil => rfl
  | cons s sels ih =>
    simp only [List.map_cons, formGetlist]
    simp [ih]

theorem map_pyStripS_filter_id : ∀ {sels : List String},
    (∀ s ∈ sels, pyStripS s = s ∧ s ≠ "") →
    (sels.map pyStripS).filter (fun v => v ≠ "") = sels := by
  intro sels
  induction sels with
  | nil => intro _; rfl
  | cons s sels ih =>
    intro h
    have hs := h s (List.mem_cons_self s sels)
    rw [List.map_cons, List.filter_cons, hs.1]
    rw [if_pos (decide_eq_true hs.2)]
    rw [ih (fun x hx => h x (List.mem_cons_of_mem s hx))]

theorem pyStripS_data {s : String} (h : pyStripS s = s) : pyStrip s.data = s.data :=
  congrArg String.data h

theorem joinPipe_data (sels : List String) :
    (joinPipe sels).data = List.intercalate ([' ', '|', ' ']) (sels.map String.data) := rfl

theorem joinPipe_ne_empty {sels : List String} (hne : sels ≠ [])
    (h : ∀ s ∈ sels, s ≠ "") : joinPipe sels ≠ "" := by
  cases sels with
  | nil => exact absurd rfl hne
  | cons s rest =>
    intro hc
    have hd : List.intercalate ([' ', '|', ' ']) ((s :: rest).map String.data) = [] := by
      have := congrArg String.data hc
      rwa [joinPipe_data] at this
    rw [List.map_cons] at hd
    refine intercalate_ne_nil ?_ hd
    intro hsd
    exact h s (List.mem_cons_self s rest) (String.ext hsd)

theorem pyStripS_joinPipe {sels : List String} (hne : sels ≠ [])
    (h : ∀ s ∈ sels, pyStripS s = s ∧ s ≠ "") :
    pyStripS (joinPipe sels) = joinPipe sels := by
  unfold pyStripS
  rw [joinPipe_data]
  cases sels with
  | nil => exact absurd rfl hne
  | cons s rest =>
    rw [List.map_cons]
    have hsdata : s.data ≠ [] := fun hc => (h s (List.mem_cons_self s rest)).2 (String.ext hc)
    have hstrip : pyStrip (List.intercalate ([' ', '|', ' ']) (s.data :: rest.map String.data)) =
        List.intercalate ([' ', '|', ' ']) (s.data :: rest.map String.data) := by
      apply pyStrip_eq_self
      · intro c hc
        rw [intercalate_head? (rest.map String.data) hsdata] at hc
        exact trimmed_head_not_ws (pyStripS_data (h s (List.mem_cons_self s rest)).1) c hc
      · intro c hc
        have hrests : ∀ x ∈ rest.map String.data, x ≠ [] := by
          intro x hxm
          rw [List.mem_map] at hxm
          obtain ⟨t, ht, rfl⟩ := hxm
          exact fun hcx => (h t (List.mem_cons_of_mem s ht)).2 (String.ext hcx)
        obtain ⟨w, hwmem, hw⟩ := intercalate_getLast? (rest.map String.data) s.data hrests
        rw [hw] at hc
        have hwstr : ∃ t ∈ s :: rest, w = t.data := by
          rcases List.mem_cons.mp hwmem with hwm | hwm
          · exact ⟨s, List.mem_cons_self s rest, hwm⟩
          · rw [List.mem_map] at hwm
            obtain ⟨t, ht, rfl⟩ := hwm
            exact ⟨t, List.mem_cons_of_mem s ht, rfl⟩
        obtain ⟨t, htmem, rfl⟩ := hwstr
        exact trimmed_getLast_not_ws (pyStripS_data (h t htmem).1) c hc
    rw [hstrip]
    exact String.ext rfl

/-- The round-trip for `multi` answers, under the hypothesis that the
selections are trimmed, non-empty members of the options and contain no
`|` character: the submission validates, stores the `" | "`-join, and the
stored string re-validates against the same options. -/
theorem checkQuestion_multi_roundtrip {q : Question} {opts sels : List String}
    (hq : q.qtype = "multi") (hopts : q.options = some opts) (hne : sels ≠ [])
    (hsel : ∀ s ∈ sels, s ∈ opts ∧ pyStripS s = s ∧ s ≠ "" ∧ ('|') ∉ s.data) :
    checkQuestion (sels.map (fun s => (q.key ++ "[]", s))) q =
      .ok (q.key, joinPipe sels) ∧ multiOk opts (joinPipe sels) = true := by
  have htrim : ∀ s ∈ sels, pyStripS s = s ∧ s ≠ "" :=
    fun s hs => ⟨(hsel s hs).2.1, (hsel s hs).2.2.1⟩
  have hpipes : ∀ s ∈ sels, ('|') ∉ s.data := fun s hs => (hsel s hs).2.2.2
  have hval : readValue (sels.map (fun s => (q.key ++ "[]", s))) q =
      pyStripS (joinPipe sels) := by
    unfold readValue
    rw [if_pos (by rw [hq]; decide)]
    rw [formGetlist_map, map_pyStripS_filter_id htrim]
  have hfix : pyStripS (joinPipe sels) = joinPipe sels := pyStripS_joinPipe hne htrim
  have hvne : joinPipe sels ≠ "" :=
    joinPipe_ne_empty hne (fun s hs => (htrim s hs).2)
  have hchosen : multiChosen (joinPipe sels) = sels := by
    rw [multiChosen_joinPipe hpipes, map_pyStripS_filter_id htrim]
  have hok : multiOk opts (joinPipe sels) = true := by
    unfold multiOk
    rw [hchosen]
    rw [List.filter_eq_nil_iff.mpr ?allin]
    case allin =>
      intro a ha
      have hc : opts.contains a = true := contains_true_iff_mem.mpr (hsel a ha).1
      intro hcon
      rw [hc] at hcon
      simp at hcon
    rfl
  refine ⟨?_, hok⟩
  have hbe : ((joinPipe sels) == "") = false := beq_eq_false_iff_ne.mpr hvne
  simp only [checkQuestion, hval, hfix, hbe, hq, hopts, hok]
  simp
  exact fun _ => hok

/-! ### Remaining helpers -/

theorem normalize_eq (raw : Val) : normalize_questions raw =
    (match unwrapQuestions raw with
      | .vlist l => normLoop 1 [] l
      | _ => []) := by
  cases raw <;> rfl

theorem normalize_keys_nodup (raw : Val) :
    ((normalize_questions raw).map Question.key).Nodup := by
  rw [normalize_eq raw]
  cases unwrapQuestions raw
  case vlist l => exact (normLoop_keys l 1 []).1
  all_goals exact List.nodup_nil

theorem mkEntry_fields {i : Nat} {key label desc qtype : String} {req : Bool}
    {options : Val} {p : PreQ}
    (h : mkEntry i key label desc qtype req options = some p) :
    p.qtype = qtype ∧ p.required = req := by
  unfold mkEntry at h
  split at h
  · exact Option.noConfusion h
  · simp only [Option.some_inj] at h
    rw [← h]
    exact ⟨rfl, rfl⟩

/-! ### The claims -/

/-- C1.  For every input to `normalize_questions`, the keys of the returned
question records are pairwise distinct and each key is a non-empty string
over `[a-z0-9_]`; and when a resolved key equals an earlier key of the
pass, the deduplication emits the first of `base_2`, `base_3`, … not
already used. -/
theorem normalize_keys_unique_slugified :
    (∀ raw : Val, ((normalize_questions raw).map Question.key).Nodup ∧
      ∀ q ∈ normalize_questions raw, q.key ≠ "" ∧ q.key.data.all isSlugChar = true) ∧
    (∀ (used : List String) (key : String), key ∉ used → dedupKey used key = key) ∧
    (∀ (used : List String) (key : String), key ∈ used →
      ∃ n, 2 ≤ n ∧ dedupKey used key = candKey key n ∧ candKey key n ∉ used ∧
        ∀ m, 2 ≤ m → m < n → candKey key m ∈ used) := by
  refine ⟨?_, ?_, ?_⟩
  · intro raw
    rw [normalize_eq raw]
    cases unwrapQuestions raw
    case vlist l =>
      refine ⟨(normLoop_keys l 1 []).1, ?_⟩
      intro q hq
      have hk := (normLoop_keys l 1 []).2 q.key (List.mem_map_of_mem Question.key hq)
      exact ⟨hk.2.1, hk.2.2⟩
    all_goals exact ⟨List.nodup_nil, by simp⟩
  · intro used key h
    exact dedupKey_eq_of_not_mem h
  · intro used key h
    exact dedupKey_first_fresh h

theorem normalize_keys_unique_slugified_witness :
    ((("age") ∉ ([("name")] : List String) ∧ dedupKey [("name")] ("age") = ("age"))) ∧
    (∃ n, 2 ≤ n ∧ dedupKey [("q"), ("q_2")] ("q") = candKey ("q") n ∧
      candKey ("q") n ∉ ([("q"), ("q_2")] : List String) ∧
      ∀ m, 2 ≤ m → m < n → candKey ("q") m ∈ ([("q"), ("q_2")] : List String)) ∧
    ((⟨1, ("age"), ("Age?"), (""), ("text"), true, none⟩ : Question).key ≠ "" ∧
      (⟨1, ("age"), ("Age?"), (""), ("text"), true, none⟩ :
        Question).key.data.all isSlugChar = true) :=
  ⟨⟨by decide, normalize_keys_unique_slugified.2.1 [("name")] ("age") (by decide)⟩,
    normalize_keys_unique_slugified.2.2 [("q"), ("q_2")] ("q") (by decide),
    (normalize_keys_unique_slugified.1
        (.vlist [.vdict [(("question"), Val.vstr ("Age?"))]])).2
      ⟨1, ("age"), ("Age?"), (""), ("text"), true, none⟩ (by decide)⟩

/-- C2 (counterexample).  A skipped non-dict element still consumes a
position: for `["skipped", {"question": "Age?"}]` the single surviving
question has `id = 2`, not the 1-based filtered position `1` the claim
predicts. -/
theorem normalize_ids_not_consecutive_cex :
    (normalize_questions (.vlist [.vstr ("skipped"),
        .vdict [(("question"), Val.vstr ("Age?"))]])).map Question.id = [2] ∧
      ([2] : List Nat) ≠ [1] := by
  constructor
  · decide
  · decide

/-- C2 (amended).  The `id` of each record returned by
`normalize_questions` is its 1-based position in the raw input list with
skipped entries still counted (`keptIds`): ids are strictly increasing and
lie in `[1, length]`, but are not necessarily consecutive. -/
theorem normalize_ids_original_positions :
    (∀ l : List Val, (normalize_questions (.vlist l)).map Question.id = keptIds 1 l) ∧
    (∀ raw : Val, ((normalize_questions raw).map Question.id).Chain'
      (fun a b => a < b)) ∧
    (∀ (l : List Val), ∀ q ∈ normalize_questions (.vlist l),
      1 ≤ q.id ∧ q.id ≤ l.length) := by
  refine ⟨?_, ?_, ?_⟩
  · intro l
    rw [normalize_vlist]
    exact normLoop_ids l 1 []
  · intro raw
    rw [normalize_eq raw]
    cases unwrapQuestions raw
    case vlist l =>
      rw [normLoop_ids l 1 []]
      exact keptIds_chain l 1
    all_goals exact List.chain'_nil
  · intro l q hq
    have hmem : q.id ∈ (normalize_questions (.vlist l)).map Question.id :=
      List.mem_map_of_mem Question.id hq
    rw [normalize_vlist, normLoop_ids l 1 []] at hmem
    have hb := keptIds_bounds l 1 q.id hmem
    omega

theorem normalize_ids_original_positions_witness :
    1 ≤ (⟨2, ("age"), ("Age?"), (""), ("text"), true, none⟩ : Question).id ∧
    (⟨2, ("age"), ("Age?"), (""), ("text"), true, none⟩ : Question).id ≤
      ([Val.vstr ("skipped"), Val.vdict [(("question"), Val.vstr ("Age?"))]] :
        List Val).length :=
  normalize_ids_original_positions.2.2
    [Val.vstr ("skipped"), Val.vdict [(("question"), Val.vstr ("Age?"))]]
    ⟨2, ("age"), ("Age?"), (""), ("text"), true, none⟩ (by decide)

/-- C3.  On a POST, if validation records any error then nothing is
persisted (the result log is returned unchanged, `save_answers` is not
reached) and all collected errors are surfaced; with no error, the
accepted answers have exactly one entry per question key and are appended
to the log as a single row. -/
theorem questionnaire_post_all_or_nothing :
    ∀ (raw : Val) (form : Form) (meta : List (String × String))
      (log : List (List (String × String))),
      ((validate (normalize_questions raw) form).2 ≠ [] →
        handlePost (normalize_questions raw) form meta log =
          (log, (validate (normalize_questions raw) form).2)) ∧
      ((validate (normalize_questions raw) form).2 = [] →
        ((validate (normalize_questions raw) form).1.map Prod.fst =
          (normalize_questions raw).map Question.key ∧
        handlePost (normalize_questions raw) form meta log =
          (log ++ [mkRow meta (normalize_questions raw)
            (validate (normalize_questions raw) form).1], []))) := by
  intro raw form meta log
  constructor
  · intro h
    simp only [handlePost]
    rw [if_neg ?c1]
    case c1 =>
      rw [List.isEmpty_iff]
      exact h
  · intro h
    refine ⟨validate_all_ok_keys (normalize_keys_nodup raw) h, ?_⟩
    simp only [handlePost]
    rw [if_pos ?c2]
    · rfl
    case c2 =>
      rw [List.isEmpty_iff]
      exact h

theorem questionnaire_post_all_or_nothing_witness :
    (handlePost (normalize_questions (.vlist [.vdict [(("question"), Val.vstr ("Age?"))]]))
        [] [] [] =
      ([], (validate (normalize_questions
        (.vlist [.vdict [(("question"), Val.vstr ("Age?"))]])) []).2)) ∧
    ((validate (normalize_questions (.vlist [.vdict [(("question"), Val.vstr ("Age?"))]]))
        [(("age"), ("30"))]).1.map Prod.fst =
      (normalize_questions (.vlist [.vdict [(("question"), Val.vstr ("Age?"))]])).map
        Question.key ∧
      handlePost (normalize_questions (.vlist [.vdict [(("question"), Val.vstr ("Age?"))]]))
        [(("age"), ("30"))] [] [] =
        ([] ++ [mkRow [] (normalize_questions
            (.vlist [.vdict [(("question"), Val.vstr ("Age?"))]]))
          (validate (normalize_questions
            (.vlist [.vdict [(("question"), Val.vstr ("Age?"))]]))
            [(("age"), ("30"))]).1], [])) :=
  ⟨(questionnaire_post_all_or_nothing
      (.vlist [.vdict [(("question"), Val.vstr ("Age?"))]]) [] [] []).1 (by decide),
    (questionnaire_post_all_or_nothing
      (.vlist [.vdict [(("question"), Val.vstr ("Age?"))]])
      [(("age"), ("30"))] [] []).2 (by decide)⟩

/-- C4.  Loading distinguishes a missing definition file from an
unparseable one: `load_questions` returns `None` for a missing file and
`[]` (empty question list) for an unparseable one, and the questionnaire
view maps these to the two distinct outcomes "not found" and
"empty/unreadable"; a not-found outcome arises exactly from a missing
file. -/
theorem load_questions_distinguishes_outcomes :
    load_questions .absent = none ∧
    load_questions .unparseable = some [] ∧
    questionnaire_dispatch .absent = .notFound ∧
    questionnaire_dispatch .unparseable = .emptyOrUnreadable ∧
    (LoadOutcome.notFound ≠ LoadOutcome.emptyOrUnreadable) ∧
    ∀ r : FileResult, (load_questions r = none ↔ r = .absent) := by
  refine ⟨rfl, rfl, rfl, rfl, by simp, ?_⟩
  intro r
  cases r with
  | absent => simp [load_questions]
  | unparseable => simp [load_questions]
  | parsed v => simp [load_questions]

/-- C5.  A legacy-format entry (no `key` field together with a
`label`/`question` field) gets type `choice` exactly when its `options`
value is a list with at least one element (else `text`), and `required`
defaults to `true` when the entry has no `required` field; a new-format
entry defaults `required` to `false`. -/
theorem normEntry_format_defaults :
    (∀ (i : Nat) (d : List (String × Val)) (p : PreQ),
      (hasKey d ("key") && (hasKey d ("label") || hasKey d ("question"))) = false →
      normEntry i (.vdict d) = some p →
      (p.qtype = if isNonEmptyList (dgetD d ("options")) then ("choice") else ("text")) ∧
      (hasKey d ("required") = false → p.required = true)) ∧
    (∀ (i : Nat) (d : List (String × Val)) (p : PreQ),
      (hasKey d ("key") && (hasKey d ("label") || hasKey d ("question"))) = true →
      normEntry i (.vdict d) = some p →
      hasKey d ("required") = false → p.required = false) := by
  constructor
  · intro i d p hleg h
    simp only [normEntry] at h
    rw [if_neg (fun hc => Bool.noConfusion (hleg ▸ hc))] at h
    obtain ⟨hq, hr⟩ := mkEntry_fields h
    refine ⟨hq, ?_⟩
    intro hreq
    rw [hr]
    cases hd : dget d ("required") with
    | some x =>
      exfalso
      unfold hasKey at hreq
      rw [hd] at hreq
      exact Bool.noConfusion hreq
    | none => rfl
  · intro i d p hnew h hreq
    simp only [normEntry] at h
    rw [if_pos hnew] at h
    obtain ⟨_, hr⟩ := mkEntry_fields h
    rw [hr]
    cases hd : dget d ("required") with
    | some x =>
      exfalso
      unfold hasKey at hreq
      rw [hd] at hreq
      exact Bool.noConfusion hreq
    | none => rfl

theorem normEntry_format_defaults_witness :
    ((⟨("age"), ("Age?"), (""), ("text"), true, none⟩ : PreQ).qtype =
      if isNonEmptyList (dgetD [(("question"), Val.vstr ("Age?"))] ("options"))
        then ("choice") else ("text")) ∧
    (hasKey [(("question"), Val.vstr ("Age?"))] ("required") = false →
      (⟨("age"), ("Age?"), (""), ("text"), true, none⟩ : PreQ).required = true) :=
  normEntry_format_defaults.1 1 [(("question"), Val.vstr ("Age?"))]
    ⟨("age"), ("Age?"), (""), ("text"), true, none⟩ (by decide) (by decide)

/-- C6 (counterexample).  An option containing `|` breaks the round-trip
claim as stated: for a `multi` question with options `["a|b"]`, submitting
the selection `"a|b"` — a trimmed member of the options — is rejected,
because the joined value is re-split on `|` into `"a"` and `"b"`. -/
theorem multi_option_with_pipe_cex :
    checkQuestion [(("c[]"), ("a|b"))]
        ⟨1, ("c"), ("C"), (""), ("multi"), false, some [("a|b")]⟩ =
      Except.error ("Réponses invalides pour " ++ apos ++ ("C") ++ apos ++ ".") ∧
    (("a|b") ∈ ([("a|b")] : List String) ∧ pyStripS ("a|b") = ("a|b") ∧
      ("a|b") ≠ ("")) := by
  constructor
  · rfl
  · refine ⟨by decide, by decide, by decide⟩

/-- C6 (amended).  For a `multi` question with declared options, submitting
selections that are trimmed, non-empty members of the options and contain
no `|` character validates and stores the `" | "`-join of the selections,
and re-validating the stored string against the same options (splitting on
`|` and trimming each part) succeeds. -/
theorem multi_roundtrip_no_pipe :
    ∀ (q : Question) (opts sels : List String),
      q.qtype = "multi" → q.options = some opts → sels ≠ [] →
      (∀ s ∈ sels, s ∈ opts ∧ pyStripS s = s ∧ s ≠ "" ∧ ('|') ∉ s.data) →
      checkQuestion (sels.map (fun s => (q.key ++ "[]", s))) q =
        .ok (q.key, joinPipe sels) ∧ multiOk opts (joinPipe sels) = true :=
  fun _ _ _ hq hopts hne hsel => checkQuestion_multi_roundtrip hq hopts hne hsel

theorem multi_roundtrip_no_pipe_witness :
    (checkQuestion ([("A"), ("B")].map (fun s =>
        ((⟨1, ("ch"), ("Choices"), (""), ("multi"), false,
          some [("A"), ("B")]⟩ : Question).key ++ "[]", s)))
        ⟨1, ("ch"), ("Choices"), (""), ("multi"), false, some [("A"), ("B")]⟩ =
      .ok ((⟨1, ("ch"), ("Choices"), (""), ("multi"), false,
        some [("A"), ("B")]⟩ : Question).key, joinPipe [("A"), ("B")]) ∧
      multiOk [("A"), ("B")] (joinPipe [("A"), ("B")]) = true) ∧
    joinPipe [("A"), ("B")] = ("A | B") :=
  ⟨multi_roundtrip_no_pipe
      ⟨1, ("ch"), ("Choices"), (""), ("multi"), false, some [("A"), ("B")]⟩
      [("A"), ("B")] [("A"), ("B")] rfl rfl (by decide) (by decide),
    rfl⟩

/-- C7.  A required question whose submitted value is empty after trimming
(for `multi`, after dropping empty selections) contributes exactly one
error — `'{label}' est obligatoire.` — and no answer entry, while every
other question is still evaluated: the validation result of
`xs ++ q :: ys` is the answers of `xs ++ ys` together with the errors of
`xs`, then that one message, then the errors of `ys`. -/
theorem required_empty_single_error :
    ∀ (form : Form) (xs ys : List Question) (q : Question),
      q.required = true → readValue form q = "" →
      validate (xs ++ q :: ys) form =
        ((validate (xs ++ ys) form).1,
          (validate xs form).2 ++ (apos ++ q.label ++ apos ++ " est obligatoire.") ::
            (validate ys form).2) := by
  intro form xs ys q hreq hval
  have hcq := checkQuestion_required_empty hreq hval
  rw [validate_spec, validate_spec, validate_spec, validate_spec]
  refine congrArg₂ Prod.mk ?_ ?_
  · rw [ansFold_append, ansFold_append]
    simp only [ansFold, hcq]
  · rw [errList_append, errList_cons_error hcq]

theorem required_empty_single_error_witness :
    validate ([] ++ (⟨1, ("age"), ("Age"), (""), ("text"), true, none⟩ : Question) :: [])
        [] =
      ((validate ([] ++ []) []).1,
        (validate [] []).2 ++
          (apos ++ (⟨1, ("age"), ("Age"), (""), ("text"), true, none⟩ : Question).label ++
            apos ++ " est obligatoire.") :: (validate [] []).2) :=
  required_empty_single_error [] [] []
    ⟨1, ("age"), ("Age"), (""), ("text"), true, none⟩ rfl rfl

/-- C8.  A non-empty `number` value is accepted exactly when it parses as a
float after substituting commas with dots (otherwise the error
`'{label}' doit être un nombre valide.` is recorded); in particular
`"12,5"` and `"12.5"` are comma-substituted to the same string and that
string parses. -/
theorem number_comma_dot_equiv :
    (∀ (form : Form) (q : Question), q.qtype = "number" →
      readValue form q ≠ "" →
      checkQuestion form q =
        (if pyFloatParses (commaToDot (readValue form q)) then
          Except.ok (q.key, readValue form q)
        else Except.error (apos ++ q.label ++ apos ++
          " doit être un nombre valide."))) ∧
    commaToDot ("12,5") = commaToDot ("12.5") ∧
    pyFloatParses (commaToDot ("12,5")) = true := by
  refine ⟨?_, by decide, by decide⟩
  intro form q hq hval
  exact checkQuestion_number hq hval

theorem number_comma_dot_equiv_witness :
    checkQuestion [(("n"), ("12,5"))]
        ⟨1, ("n"), ("N"), (""), ("number"), false, none⟩ =
      (if pyFloatParses (commaToDot (readValue [(("n"), ("12,5"))]
          ⟨1, ("n"), ("N"), (""), ("number"), false, none⟩)) then
        Except.ok ((⟨1, ("n"), ("N"), (""), ("number"), false, none⟩ : Question).key,
          readValue [(("n"), ("12,5"))]
            ⟨1, ("n"), ("N"), (""), ("number"), false, none⟩)
      else Except.error (apos ++
        (⟨1, ("n"), ("N"), (""), ("number"), false, none⟩ : Question).label ++ apos ++
        " doit être un nombre valide.")) :=
  number_comma_dot_equiv.1 [(("n"), ("12,5"))]
    ⟨1, ("n"), ("N"), (""), ("number"), false, none⟩ rfl (by decide)

/-- C9.  `slugify` of a string containing only non-alphanumeric characters
is the fallback `"question"`; `slugify` never returns the empty string, so
the `or`-fallback after `slugify(label)` (and hence the positional `q{n}`
key) is never taken from a slugification result. -/
theorem slugify_nonalnum_fallback :
    (∀ s : String, (∀ c ∈ s.data, pyIsAlnumChar c = false) →
      slugify s = "question") ∧
    (∀ s : String, slugify s ≠ "") ∧
    (∀ (lbl fallback : String), pyOrS (slugify lbl) fallback = slugify lbl) := by
  refine ⟨?_, slugify_ne_empty, ?_⟩
  · intro s h
    exact slugify_nonalnum h
  · intro lbl fb
    unfold pyOrS
    rw [if_neg ?c]
    case c =>
      intro hc
      rw [beq_iff_eq] at hc
      exact slugify_ne_empty lbl hc

theorem slugify_nonalnum_fallback_witness :
    slugify ("!?  #") = "question" :=
  slugify_nonalnum_fallback.1 ("!?  #") (by decide)

/-- C10.  `slugify` is idempotent: re-slugifying an already-slugified
admin-supplied key leaves it unchanged. -/
theorem slugify_idempotent_claim :
    ∀ s : String, slugify (slugify s) = slugify s :=
  fun s => slugify_idempotent s

end Quiz
